import Mathlib

/-!
Verification of the spatial-query core of the meshup mesh editor: the
geometry primitives (`src/core/dim3.rs`), the BVH builder and the two
ray-traversal modes (`src/core/editable_mesh/bvh.rs`).

Machine floating-point arithmetic (`f32`/`f64`) is idealized as exact
rational arithmetic (`ℚ`); the external quartic solver (the `roots`
crate) is modelled as an exact real-root finder over `ℝ`.
-/

namespace MeshupCore

/-- 3-vectors with exact rational coordinates (model of `bevy::math::Vec3`). -/
structure Vec3 where
  x : ℚ
  y : ℚ
  z : ℚ
deriving DecidableEq, Repr

def Vec3.zero : Vec3 := ⟨0, 0, 0⟩

def Vec3.add (a b : Vec3) : Vec3 := ⟨a.x + b.x, a.y + b.y, a.z + b.z⟩

def Vec3.sub (a b : Vec3) : Vec3 := ⟨a.x - b.x, a.y - b.y, a.z - b.z⟩

/-- Componentwise product (Rust `Vec3 * Vec3`). -/
def Vec3.hmul (a b : Vec3) : Vec3 := ⟨a.x * b.x, a.y * b.y, a.z * b.z⟩

/-- Scalar multiple (Rust `s * Vec3` / `Vec3 * s`). -/
def Vec3.smul (s : ℚ) (a : Vec3) : Vec3 := ⟨s * a.x, s * a.y, s * a.z⟩

instance : Add Vec3 := ⟨Vec3.add⟩

instance : Sub Vec3 := ⟨Vec3.sub⟩

instance : Mul Vec3 := ⟨Vec3.hmul⟩

def Vec3.dot (a b : Vec3) : ℚ := a.x * b.x + a.y * b.y + a.z * b.z

def Vec3.cross (a b : Vec3) : Vec3 :=
  ⟨a.y * b.z - a.z * b.y, a.z * b.x - a.x * b.z, a.x * b.y - a.y * b.x⟩

def Vec3.lengthSquared (a : Vec3) : ℚ := a.x * a.x + a.y * a.y + a.z * a.z

/-- Componentwise minimum (Rust `Vec3::min`). -/
def Vec3.cmin (a b : Vec3) : Vec3 := ⟨min a.x b.x, min a.y b.y, min a.z b.z⟩

/-- Componentwise maximum (Rust `Vec3::max`). -/
def Vec3.cmax (a b : Vec3) : Vec3 := ⟨max a.x b.x, max a.y b.y, max a.z b.z⟩

/-- Indexing by axis: `v[0] = x`, `v[1] = y`, anything else `z`
(the source only uses axes 0, 1, 2). -/
def Vec3.get (v : Vec3) (axis : ℕ) : ℚ :=
  match axis with
  | 0 => v.x
  | 1 => v.y
  | _ => v.z

/-- Componentwise `≤`. -/
def Vec3.le (a b : Vec3) : Prop := a.x ≤ b.x ∧ a.y ≤ b.y ∧ a.z ≤ b.z

instance (a b : Vec3) : Decidable (Vec3.le a b) := by
  unfold Vec3.le; infer_instance

/-- Quaternions with rational components (model of `bevy::math::Quat`). -/
structure Quat where
  qx : ℚ
  qy : ℚ
  qz : ℚ
  qw : ℚ
deriving DecidableEq, Repr

def Quat.IDENTITY : Quat := ⟨0, 0, 0, 1⟩

def Quat.xyz (q : Quat) : Vec3 := ⟨q.qx, q.qy, q.qz⟩

/-- Quaternion rotation of a vector
(glam: `q * v = v + 2 * q.xyz × (q.xyz × v + q.w * v)`). -/
def Quat.mulVec3 (q : Quat) (v : Vec3) : Vec3 :=
  v + Vec3.smul 2 (Vec3.cross q.xyz (Vec3.cross q.xyz v + Vec3.smul q.qw v))

/-- Model of `bevy::prelude::Transform`. -/
structure Transform where
  translation : Vec3
  rotation : Quat
  scale : Vec3
deriving DecidableEq, Repr

def Transform.IDENTITY : Transform := ⟨Vec3.zero, Quat.IDENTITY, ⟨1, 1, 1⟩⟩

/-- Model of `bevy::math::bounding::Aabb3d`: axis-aligned box given by two corners. -/
structure Aabb3d where
  lo : Vec3
  hi : Vec3
deriving DecidableEq, Repr

namespace Aabb3d

/-- `Aabb3d::new(center, half_size)`. -/
def new (center halfSize : Vec3) : Aabb3d := ⟨center - halfSize, center + halfSize⟩

def center (a : Aabb3d) : Vec3 := Vec3.smul (1/2) (a.lo + a.hi)

def halfSize (a : Aabb3d) : Vec3 := Vec3.smul (1/2) (a.hi - a.lo)

/-- `BoundingVolume::merge` for `Aabb3d`: componentwise min/max of the corners. -/
def merge (a b : Aabb3d) : Aabb3d := ⟨Vec3.cmin a.lo b.lo, Vec3.cmax a.hi b.hi⟩

/-- `Aabb3d::visible_area`: with `b = max - min`, the value
`b.x * (b.y + b.z) + b.y * b.z` (half the surface area). -/
def visibleArea (a : Aabb3d) : ℚ :=
  let b := a.hi - a.lo
  b.x * (b.y + b.z) + b.y * b.z

/-- Box containment: `a` is inside `b`. -/
def inside (a b : Aabb3d) : Prop := Vec3.le b.lo a.lo ∧ Vec3.le a.hi b.hi

instance (a b : Aabb3d) : Decidable (Aabb3d.inside a b) := by
  unfold Aabb3d.inside; infer_instance

end Aabb3d

/-- Model of `bevy::math::bounding::RayCast3d`: origin, direction and maximum
ray parameter. The source stores a normalized `Direction3d`; no normalization
is applied here (it is irrelevant to the slab arithmetic, which divides by the
stored components). -/
structure RayCast3d where
  origin : Vec3
  dir : Vec3
  rmax : ℚ
deriving DecidableEq, Repr

/-- One axis of the slab test of `RayCast3d::aabb_intersection_at`.
Returns the pair (axis entry time, axis exit time).

For a zero direction component the floating-point source produces
`±∞` / `NaN` slab times whose net effect under the `NaN`-discarding
min/max reduction is: the axis is irrelevant when `mn ≤ o ≤ mx`
(modelled by the neutral pair `(0, rayMax)`) and a guaranteed miss
otherwise (modelled by the absorbing pair `(1, 0)`, which forces
`tmin ≥ 1 > 0 ≥ tmax`). -/
def axisSlab (o d mn mx rayMax : ℚ) : ℚ × ℚ :=
  if d = 0 then
    if mn ≤ o ∧ o ≤ mx then (0, rayMax) else (1, 0)
  else if 0 < d then ((mn - o) / d, (mx - o) / d)
  else ((mx - o) / d, (mn - o) / d)

/-- `RayCast3d::aabb_intersection_at`: entry distance of the ray into the box,
clamped below by `0` and above by the ray's maximum. -/
def RayCast3d.aabbIntersectionAt (ray : RayCast3d) (aabb : Aabb3d) : Option ℚ :=
  let sx := axisSlab ray.origin.x ray.dir.x aabb.lo.x aabb.hi.x ray.rmax
  let sy := axisSlab ray.origin.y ray.dir.y aabb.lo.y aabb.hi.y ray.rmax
  let sz := axisSlab ray.origin.z ray.dir.z aabb.lo.z aabb.hi.z ray.rmax
  let tmin := max (max (max 0 sx.1) sy.1) sz.1
  let tmax := min (min (min ray.rmax sx.2) sy.2) sz.2
  if tmin ≤ tmax then some tmin else none

/-! ## Geometry primitives (`src/core/dim3.rs`) -/

/-- `Triangle3d` from `src/core/dim3.rs`. -/
structure Triangle3d where
  v0 : Vec3
  v1 : Vec3
  v2 : Vec3
deriving DecidableEq, Repr

/-- The `1e-5` epsilon written `0.00001` in the source. -/
def eps : ℚ := 1 / 100000

/-- The intermediate values of `Triangle3d::intersects_ray_at`: the
determinant `a`, the barycentric coordinates `u`, `v` and the parametric
distance `t`, computed exactly as the source computes them (the source
interleaves these pure computations with the rejection tests; evaluation
order is immaterial). -/
def mtData (tri : Triangle3d) (ray : RayCast3d) : ℚ × ℚ × ℚ × ℚ :=
  let edge1 := tri.v1 - tri.v0
  let edge2 := tri.v2 - tri.v0
  let h := Vec3.cross ray.dir edge2
  let a := Vec3.dot edge1 h
  let f := 1 / a
  let s := ray.origin - tri.v0
  let u := f * Vec3.dot s h
  let q := Vec3.cross s edge1
  let v := f * Vec3.dot ray.dir q
  let t := f * Vec3.dot edge2 q
  (a, u, v, t)

/-- `Triangle3d::intersects_ray_at`: MT-style ray/triangle intersection.
The rejection chain of the source over the `mtData` quantities. -/
def Triangle3d.intersectsRayAt (tri : Triangle3d) (ray : RayCast3d) : Option ℚ :=
  let d := mtData tri ray
  if -eps < d.1 ∧ d.1 < eps then none
  else if d.2.1 < 0 ∨ d.2.1 > 1 then none
  else if d.2.2.1 < 0 ∨ d.2.1 + d.2.2.1 > 1 then none
  else if d.2.2.2 > eps then some d.2.2.2 else none

/-- The fan triangles of `ray_intersects_convex_plane_at`: each window of two
successive vertices after the first, with the transform's scale and translation
applied to every vertex. -/
def fanTriangles (transform : Transform) (vertices : List Vec3) : List Triangle3d :=
  match vertices with
  | [] => []
  | v0 :: rest =>
    (rest.zip rest.tail).map fun p =>
      ⟨v0 * transform.scale + transform.translation,
       p.1 * transform.scale + transform.translation,
       p.2 * transform.scale + transform.translation⟩

/-- The per-triangle loop of `ray_intersects_convex_plane_at`: the first
triangle with an MT hit decides; its hit is kept only if strictly below the
ray's maximum, otherwise the whole query returns `none` immediately. -/
def fanLoop (ray : RayCast3d) : List Triangle3d → Option ℚ
  | [] => none
  | tri :: rest =>
    match tri.intersectsRayAt ray with
    | some t => if t < ray.rmax then some t else none
    | none => fanLoop ray rest

/-- `ray_intersects_convex_plane_at` from `src/core/dim3.rs`. -/
def rayIntersectsConvexPlaneAt (ray : RayCast3d) (transform : Transform)
    (vertices : List Vec3) : Option ℚ :=
  fanLoop ray (fanTriangles transform vertices)

/-- `Torus` from `src/core/dim3.rs`. -/
structure Torus where
  ringRadius : ℚ
  ringThickness : ℚ
  position : Vec3
  orient : Quat
deriving DecidableEq, Repr

/-- The quartic coefficients `(a4, a3, a2, a1, a0)` computed by
`Torus::intersets_ray_at` (sic) before the call into the external solver. -/
def Torus.quarticCoeffs (tor : Torus) (ray : RayCast3d) : ℚ × ℚ × ℚ × ℚ × ℚ :=
  let d := tor.orient.mulVec3 (ray.origin - tor.position)
  let e := tor.orient.mulVec3 ray.dir
  let a := tor.ringRadius
  let b := tor.ringThickness
  let aSquared := a * a
  let bSquared := b * b
  let eSquared := e * e
  let dSquared := d * d
  let dE := d * e
  let g := 4 * aSquared * (eSquared.x + eSquared.z)
  let h := 8 * aSquared * (dE.x + dE.z)
  let i := 4 * aSquared * (dSquared.x + dSquared.z)
  let j := e.lengthSquared
  let k := 2 * d.dot e
  let l := d.lengthSquared + (aSquared - bSquared)
  (j * j, 2 * j * k, 2 * j * l + k * k - g, 2 * k * l - h, l * l - i)

/-- The real roots of the quartic with the given coefficients. The external
`roots::find_roots_quartic` routine is modelled as an exact real-root finder. -/
def quarticRoots (c : ℚ × ℚ × ℚ × ℚ × ℚ) : Set ℝ :=
  {s : ℝ | (c.1 : ℝ) * s ^ 4 + (c.2.1 : ℝ) * s ^ 3 + (c.2.2.1 : ℝ) * s ^ 2
    + (c.2.2.2.1 : ℝ) * s + (c.2.2.2.2 : ℝ) = 0}

/-- Result relation for `Torus::intersets_ray_at`: the filtering and selection
the source applies to the solver's roots.  `some t` holds exactly when `t` is
the least non-negative real root of the quartic and is within the ray's
maximum; `none` holds exactly when no non-negative root is within range. -/
def Torus.RayResult (tor : Torus) (ray : RayCast3d) : Option ℝ → Prop
  | some t => IsLeast {s ∈ quarticRoots (tor.quarticCoeffs ray) | 0 ≤ s} t ∧ t ≤ (ray.rmax : ℝ)
  | none => ∀ s ∈ quarticRoots (tor.quarticCoeffs ray), 0 ≤ s → (ray.rmax : ℝ) < s

/-! ## The mesh data consumed by the BVH builder -/

/-- The part of `EditableMesh` the BVH builder and the precise traversal read:
for each face (identified by its dense handle, an index) the positions of its
adjacent vertices, in counter-clockwise order. -/
structure EditableMesh where
  faces : List (List Vec3)
deriving DecidableEq, Repr

/-- Face centroid cache entry: average of the face's adjacent vertex positions
(`From<&EditableMesh> for BoundingVolumeHierarchy`, precompute loop). -/
def faceCentroid (face : List Vec3) : Vec3 :=
  Vec3.smul (1 / (face.length : ℚ)) (face.foldl (fun acc p => p + acc) Vec3.zero)

/-- Face AABB cache entry: min/max fold of the adjacent vertex positions,
seeded with the first vertex.  The source unwraps the first vertex and would
panic on a face with no vertices; such faces cannot exist in a `lox` mesh, and
theorems about meshes carry the corresponding hypothesis. -/
def faceAabb (face : List Vec3) : Aabb3d :=
  match face with
  | [] => ⟨Vec3.zero, Vec3.zero⟩
  | first :: rest =>
    let mm := rest.foldl (fun mm p => (Vec3.cmin p mm.1, Vec3.cmax p mm.2)) (first, first)
    ⟨mm.1, mm.2⟩

/-! ## BVH nodes -/

/-- `Node` from `src/core/editable_mesh/bvh.rs`. -/
inductive Node where
  | nonLeaf (left right : ℕ) (aabb : Aabb3d)
  | leaf (aabb : Aabb3d) (primitiveList : List ℕ)
deriving DecidableEq, Repr

def Node.aabb : Node → Aabb3d
  | .nonLeaf _ _ a => a
  | .leaf a _ => a

def Node.isLeaf : Node → Bool
  | .nonLeaf _ _ _ => false
  | .leaf _ _ => true

def Node.primitives : Node → Option (List ℕ)
  | .nonLeaf _ _ _ => none
  | .leaf _ ps => some ps

def Node.children : Node → Option (ℕ × ℕ)
  | .nonLeaf l r _ => some (l, r)
  | .leaf _ _ => none

/-- `Node::intersects_ray`: scale/translate the node's AABB by the transform,
then run the slab test with the (already rotated) ray. -/
def Node.intersectsRay (n : Node) (ray : RayCast3d) (transform : Transform) : Option ℚ :=
  let aabb := n.aabb
  let moved := Aabb3d.new (aabb.center * transform.scale + transform.translation)
    (aabb.halfSize * transform.scale)
  ray.aabbIntersectionAt moved

/-- `BoundingVolumeHierarchy`: the flat node array; node 0 is the root. -/
structure BoundingVolumeHierarchy where
  nodes : List Node
deriving DecidableEq, Repr

/-- `BoundingVolumeHierarchy::new` (which calls `Self::default()`). -/
def BoundingVolumeHierarchy.new : BoundingVolumeHierarchy := ⟨[]⟩

/-- `Default for BoundingVolumeHierarchy`: the empty node array. -/
def bvhDefault : BoundingVolumeHierarchy := ⟨[]⟩

/-! ## BVH builder (`split_node` and `From<&EditableMesh>`) -/

/-- `BoundingVolumeHierarchy::BUCKET_COUNT`. -/
def BUCKET_COUNT : ℕ := 16

/-- `maximum_primitive_per_leaf` from `From<&EditableMesh>` (the source sets `8u32`). -/
def maximumPrimitivePerLeaf : ℕ := 8

/-- `Bucket` from `src/core/editable_mesh/bvh.rs`. -/
structure Bucket where
  primitiveCount : ℕ
  aabb : Option Aabb3d
deriving DecidableEq, Repr

/-- Bin assignment of a face on an axis:
`((centroid[axis] - min) / (max - min) * 16).min(15) as usize`.
`Int.toNat` mirrors the saturating-to-zero `as usize` cast. -/
def bucketIndex (cent : ℕ → Vec3) (rootAabb : Aabb3d) (axis : ℕ) (f : ℕ) : ℕ :=
  let mn := rootAabb.lo.get axis
  let mx := rootAabb.hi.get axis
  (⌊min (((cent f).get axis - mn) / (mx - mn) * 16) 15⌋).toNat

/-- The bucket update for one face: bump the count and merge the face AABB. -/
def bumpBucket (fab : ℕ → Aabb3d) (f : ℕ) (b : Bucket) : Bucket :=
  ⟨b.primitiveCount + 1,
    match b.aabb with
    | some a => some (a.merge (fab f))
    | none => some (fab f)⟩

/-- One step of the bucket-accumulation fold: bump the face's bin count and
merge its AABB into the bin. -/
def addToBucket (cent : ℕ → Vec3) (fab : ℕ → Aabb3d) (rootAabb : Aabb3d) (axis : ℕ)
    (buckets : List Bucket) (f : ℕ) : List Bucket :=
  match buckets[bucketIndex cent rootAabb axis f]? with
  | none => buckets
  | some b => buckets.set (bucketIndex cent rootAabb axis f) (bumpBucket fab f b)

/-- The 16 buckets of one axis after folding in all primitives. -/
def mkBuckets (cent : ℕ → Vec3) (fab : ℕ → Aabb3d) (rootAabb : Aabb3d) (axis : ℕ)
    (prims : List ℕ) : List Bucket :=
  prims.foldl (addToBucket cent fab rootAabb axis) (List.replicate BUCKET_COUNT ⟨0, none⟩)

/-- `Bucket::default()`-seeded aggregation fold used for the left/right splits. -/
def combineBuckets (acc b : Bucket) : Bucket :=
  ⟨acc.primitiveCount + b.primitiveCount,
   match acc.aabb, b.aabb with
   | none, x => x
   | some a, none => some a
   | some a, some c => some (a.merge c)⟩

/-- A candidate split tracked by `split_node`'s running minimum. -/
structure SplitCandidate where
  axis : ℕ
  position : ℚ
  cost : ℚ
  leftSize : ℕ
  rightSize : ℕ
  leftAabb : Aabb3d
  rightAabb : Aabb3d
deriving DecidableEq, Repr

/-- The candidate produced at interior boundary `i` of `axis`, or `none` when
either aggregate has no AABB (the `continue`d boundaries). -/
def boundaryCandidate (cent : ℕ → Vec3) (fab : ℕ → Aabb3d) (rootAabb : Aabb3d)
    (prims : List ℕ) (axis i : ℕ) : Option SplitCandidate :=
  let buckets := mkBuckets cent fab rootAabb axis prims
  let leftB := (buckets.take i).foldl combineBuckets ⟨0, none⟩
  let rightB := (buckets.drop i).foldl combineBuckets ⟨0, none⟩
  match leftB.aabb, rightB.aabb with
  | some la, some ra =>
    let mn := rootAabb.lo.get axis
    let mx := rootAabb.hi.get axis
    let rootSurfaceArea := rootAabb.visibleArea
    some ⟨axis, mn + ((i : ℚ) / (BUCKET_COUNT : ℚ)) * (mx - mn),
      la.visibleArea / rootSurfaceArea * (leftB.primitiveCount : ℚ)
        + ra.visibleArea / rootSurfaceArea * (rightB.primitiveCount : ℚ),
      leftB.primitiveCount, rightB.primitiveCount, la, ra⟩
  | _, _ => none

/-- All candidates in the source's iteration order: axes 0,1,2, and for each
axis the interior boundaries `1 ≤ i < BUCKET_COUNT - 1`. -/
def splitCandidates (cent : ℕ → Vec3) (fab : ℕ → Aabb3d) (rootAabb : Aabb3d)
    (prims : List ℕ) : List SplitCandidate :=
  (List.range 3).flatMap fun axis =>
    (List.range' 1 (BUCKET_COUNT - 2)).filterMap fun i =>
      boundaryCandidate cent fab rootAabb prims axis i

/-- The running-minimum fold over the candidates; a later candidate replaces
the best one only when its cost is strictly smaller. -/
def pickBest (cands : List SplitCandidate) : Option SplitCandidate :=
  cands.foldl (fun best c =>
    match best with
    | none => some c
    | some b => if c.cost < b.cost then some c else some b) none

/-- Outcome of `split_node`: `crash` models a panic (a failed `assert_eq!` or
a non-leaf node), `noSplit` the `return None` path, and `ok` the rewritten
node array together with the two fresh child indices. -/
inductive SplitResult where
  | crash
  | noSplit
  | ok (nodes : List Node) (left right : ℕ)
deriving DecidableEq, Repr

/-- `BoundingVolumeHierarchy::split_node`. -/
def splitNode (cent : ℕ → Vec3) (fab : ℕ → Aabb3d) (nodes : List Node)
    (nodeIndex : ℕ) : SplitResult :=
  match nodes[nodeIndex]? with
  | some (Node.leaf rootAabb prims) =>
    match pickBest (splitCandidates cent fab rootAabb prims) with
    | none => .noSplit
    | some c =>
      let leftList := prims.filter fun f => decide ((cent f).get c.axis < c.position)
      let rightList := prims.filter fun f => !(decide ((cent f).get c.axis < c.position))
      if prims.length = c.leftSize + c.rightSize ∧ leftList.length = c.leftSize ∧
          rightList.length = c.rightSize then
        let leftIndex := nodes.length
        let rightIndex := leftIndex + 1
        .ok ((nodes.set nodeIndex (Node.nonLeaf leftIndex rightIndex rootAabb))
          ++ [Node.leaf c.leftAabb leftList, Node.leaf c.rightAabb rightList])
          leftIndex rightIndex
      else .crash
  | _ => .crash

/-- The breadth-first work-queue loop of `From<&EditableMesh>`.  `none` models
a panic (an out-of-bounds node index, a non-leaf queue entry, a failed assert)
or fuel exhaustion; fuel `2 * numFaces` is proved sufficient. -/
def buildLoop (cent : ℕ → Vec3) (fab : ℕ → Aabb3d) :
    ℕ → List Node → List ℕ → Option (List Node)
  | _, nodes, [] => some nodes
  | 0, _, _ :: _ => none
  | fuel + 1, nodes, top :: queue =>
    match nodes[top]? with
    | some (Node.leaf _ prims) =>
      if prims.length ≤ maximumPrimitivePerLeaf then
        buildLoop cent fab fuel nodes queue
      else
        match splitNode cent fab nodes top with
        | .ok newNodes l r => buildLoop cent fab fuel newNodes (queue ++ [l, r])
        | .noSplit => buildLoop cent fab fuel nodes queue
        | .crash => none
    | _ => none

/-- `From<&EditableMesh> for BoundingVolumeHierarchy`: precompute the centroid
and AABB caches, seed the root leaf with every face handle and the merged AABB,
and drain the work queue.  `none` models the panic on an empty mesh (the
`unwrap` of the first face AABB) or any panic inside the loop. -/
def buildBVH (m : EditableMesh) : Option BoundingVolumeHierarchy :=
  match m.faces with
  | [] => none
  | f0 :: _ =>
    let cent := fun i => faceCentroid (m.faces.getD i [])
    let fab := fun i => faceAabb (m.faces.getD i [])
    let rootAabb := (m.faces.map faceAabb).foldl (fun acc c => acc.merge c) (faceAabb f0)
    let rootNode := Node.leaf rootAabb (List.range m.faces.length)
    (buildLoop cent fab (2 * m.faces.length) [rootNode] [0]).map fun nodes => ⟨nodes⟩

/-! ## Traversal -/

/-- The ray handed to the traversals: origin and direction rotated by the
transform's rotation (`RayCast3d::new(rot * origin, rot * dir, max)`).  The
source renormalizes the rotated direction through `Direction3d`; rotation by a
unit quaternion preserves the norm, so in exact arithmetic the
renormalization is the identity and is omitted. -/
def transformedRay (ray : RayCast3d) (transform : Transform) : RayCast3d :=
  ⟨transform.rotation.mulVec3 ray.origin, transform.rotation.mulVec3 ray.dir, ray.rmax⟩

/-- The pruning test `if t > value {continue}` of both traversal loops:
the popped node's entry distance exceeds the best hit so far. -/
def pruned (closest : Option ℚ) (t : ℚ) : Prop :=
  match closest with
  | some value => value < t
  | none => False

instance (closest : Option ℚ) (t : ℚ) : Decidable (pruned closest t) := by
  unfold pruned
  match closest with
  | some value => exact inferInstanceAs (Decidable (value < t))
  | none => exact inferInstanceAs (Decidable False)

/-- The pruning test of the precise loop (`closest` carries a face handle). -/
def prunedPair (closest : Option (ℕ × ℚ)) (t : ℚ) : Prop :=
  match closest with
  | some p => p.2 < t
  | none => False

instance (closest : Option (ℕ × ℚ)) (t : ℚ) : Decidable (prunedPair closest t) := by
  unfold prunedPair
  match closest with
  | some p => exact inferInstanceAs (Decidable (p.2 < t))
  | none => exact inferInstanceAs (Decidable False)

/-- The child-push order of both traversal loops: when both children report a
hit, the farther one is pushed first so the nearer one is popped first;
otherwise `left` is pushed, then `right` (so `right` is on top). -/
def pushOrder (left right : ℕ) (leftT rightT : Option ℚ) (stack : List ℕ) : List ℕ :=
  match leftT, rightT with
  | some lt2, some rt2 =>
    if lt2 < rt2 then left :: right :: stack else right :: left :: stack
  | _, _ => right :: left :: stack

/-- The stack-based loop of `intersects_ray_at_fast`.  The outer `Option`
models panics (an out-of-bounds node index) and fuel exhaustion; the inner
`Option ℚ` is `closest_t`. -/
def fastLoop (nodes : List Node) (ray : RayCast3d) (transform : Transform) :
    ℕ → List ℕ → Option ℚ → Option (Option ℚ)
  | _, [], closest => some closest
  | 0, _ :: _, _ => none
  | fuel + 1, top :: stack, closest =>
    match nodes[top]? with
    | none => none
    | some node =>
      match node.intersectsRay ray transform with
      | none => fastLoop nodes ray transform fuel stack closest
      | some t =>
        if pruned closest t then
          fastLoop nodes ray transform fuel stack closest
        else
          match node with
          | Node.leaf _ _ =>
            fastLoop nodes ray transform fuel stack
              (some (match closest with | some v => min v t | none => t))
          | Node.nonLeaf left right _ =>
            match nodes[left]?, nodes[right]? with
            | some leftNode, some rightNode =>
              fastLoop nodes ray transform fuel
                (pushOrder left right (leftNode.intersectsRay ray transform)
                  (rightNode.intersectsRay ray transform) stack) closest
            | _, _ => none

/-- `BoundingVolumeHierarchy::intersects_ray_at_fast`. -/
def intersectsRayAtFast (bvh : BoundingVolumeHierarchy) (ray : RayCast3d)
    (transform : Transform) : Option (Option ℚ) :=
  fastLoop bvh.nodes (transformedRay ray transform) transform
    (3 ^ (bvh.nodes.length + 1)) [0] none

/-- The closest-hit update of the precise leaf scan. -/
def updateClosest (closest : Option (ℕ × ℚ)) (faceHandle : ℕ) :
    Option ℚ → Option (ℕ × ℚ)
  | none => closest
  | some t =>
    match closest with
    | some p => if t < p.2 then some (faceHandle, t) else some p
    | none => some (faceHandle, t)

/-- The per-leaf face loop of `intersects_ray_at`, instrumented with a ghost
list of every accepted `(face, distance)` hit (the source only keeps the
running closest; the ghost list changes nothing observable). -/
def leafScan (mesh : EditableMesh) (ray : RayCast3d) (transform : Transform) :
    List ℕ → Option (ℕ × ℚ) → List (ℕ × ℚ) →
    Option (Option (ℕ × ℚ) × List (ℕ × ℚ))
  | [], closest, hits => some (closest, hits)
  | fh :: rest, closest, hits =>
    match mesh.faces[fh]? with
    | none => none
    | some verts =>
      match rayIntersectsConvexPlaneAt ray transform verts with
      | some t =>
        leafScan mesh ray transform rest (updateClosest closest fh (some t))
          (hits ++ [(fh, t)])
      | none => leafScan mesh ray transform rest closest hits

/-- The stack-based loop of `intersects_ray_at`, instrumented with the ghost
hit list.  Outer `Option` as in `fastLoop`, plus the panic of an invalid face
handle inside a leaf. -/
def preciseLoop (nodes : List Node) (mesh : EditableMesh) (ray : RayCast3d)
    (transform : Transform) :
    ℕ → List ℕ → Option (ℕ × ℚ) → List (ℕ × ℚ) →
    Option (Option (ℕ × ℚ) × List (ℕ × ℚ))
  | _, [], closest, hits => some (closest, hits)
  | 0, _ :: _, _, _ => none
  | fuel + 1, top :: stack, closest, hits =>
    match nodes[top]? with
    | none => none
    | some node =>
      match node.intersectsRay ray transform with
      | none => preciseLoop nodes mesh ray transform fuel stack closest hits
      | some t =>
        if prunedPair closest t then
          preciseLoop nodes mesh ray transform fuel stack closest hits
        else
          match node with
          | Node.leaf _ prims =>
            match leafScan mesh ray transform prims closest hits with
            | some (closest2, hits2) =>
              preciseLoop nodes mesh ray transform fuel stack closest2 hits2
            | none => none
          | Node.nonLeaf left right _ =>
            match nodes[left]?, nodes[right]? with
            | some leftNode, some rightNode =>
              preciseLoop nodes mesh ray transform fuel
                (pushOrder left right (leftNode.intersectsRay ray transform)
                  (rightNode.intersectsRay ray transform) stack) closest hits
            | _, _ => none

/-- `BoundingVolumeHierarchy::intersects_ray_at` (the precise mode); the ghost
hit list is dropped. -/
def intersectsRayAt (bvh : BoundingVolumeHierarchy) (ray : RayCast3d)
    (transform : Transform) (mesh : EditableMesh) : Option (Option (ℕ × ℚ)) :=
  (preciseLoop bvh.nodes mesh (transformedRay ray transform) transform
    (3 ^ (bvh.nodes.length + 1)) [0] none []).map (·.1)

/-- First-minimum selection over the accepted hits: the fold the precise mode
effectively computes (a later hit replaces the best only when strictly
closer). -/
def selectClosest (hits : List (ℕ × ℚ)) : Option (ℕ × ℚ) :=
  hits.foldl (fun acc p =>
    match acc with
    | none => some p
    | some q => if p.2 < q.2 then some p else some q) none

/-! ## Derived notions used by the builder invariants -/

/-- The primitive multiset a single node contributes (its list if a leaf). -/
def nodePrims : Node → Multiset ℕ
  | Node.leaf _ ps => (ps : Multiset ℕ)
  | Node.nonLeaf _ _ _ => 0

/-- The multiset union of the primitive lists of all leaf nodes. -/
def leavesPrims (nodes : List Node) : Multiset ℕ :=
  (nodes.map nodePrims).sum

/-- Fuel measure of the build queue: each queued leaf contributes
`2 * size - 1`. -/
def queueMeasure (nodes : List Node) (queue : List ℕ) : ℕ :=
  (queue.map fun q =>
    match nodes[q]? with
    | some (Node.leaf _ ps) => 2 * ps.length - 1
    | _ => 0).sum

/-- Node `j` is a leaf whose transformed box the (already rotated) ray enters
at distance `t`. -/
def leafEntry (nodes : List Node) (ray : RayCast3d) (tf : Transform)
    (j : ℕ) (t : ℚ) : Prop :=
  ∃ a ps, nodes[j]? = some (Node.leaf a ps) ∧
    Node.intersectsRay (Node.leaf a ps) ray tf = some t

/-- Fuel measure of a traversal stack: children always carry larger indices
than their parent, so each entry contributes `3 ^ (length - index)`. -/
def stackMeasure (nodes : List Node) (stack : List ℕ) : ℕ :=
  (stack.map fun s => 3 ^ (nodes.length - s)).sum

/-- `Desc nodes i j`: node `j` is `i` itself or a descendant of node `i`
through `NonLeaf` children. -/
inductive Desc (nodes : List Node) : ℕ → ℕ → Prop where
  | refl (i : ℕ) : Desc nodes i i
  | child (i j l r c : ℕ) (a : Aabb3d) : Desc nodes i j →
      nodes[j]? = some (Node.nonLeaf l r a) → c = l ∨ c = r → Desc nodes i c

/-- The invariant maintained by the build loop: leaf boxes are valid and
contain their faces, non-leaf children exist and stay inside the parent box,
queued indices are distinct non-empty leaves, every leaf off the queue is
already small or unsplittable, and every index descends from the root. -/
structure BuildInv (cent : ℕ → Vec3) (fab : ℕ → Aabb3d)
    (nodes : List Node) (queue : List ℕ) : Prop where
  leafValid : ∀ (j : ℕ) (a : Aabb3d) (ps : List ℕ),
    nodes[j]? = some (Node.leaf a ps) → Vec3.le a.lo a.hi
  leafCont : ∀ (j : ℕ) (a : Aabb3d) (ps : List ℕ),
    nodes[j]? = some (Node.leaf a ps) → ∀ f ∈ ps, (fab f).inside a
  childOk : ∀ (j l r : ℕ) (a : Aabb3d), nodes[j]? = some (Node.nonLeaf l r a) →
    (∃ nl, nodes[l]? = some nl ∧ nl.aabb.inside a) ∧
    (∃ nr, nodes[r]? = some nr ∧ nr.aabb.inside a)
  childIdx : ∀ (j l r : ℕ) (a : Aabb3d), nodes[j]? = some (Node.nonLeaf l r a) →
    j < l ∧ j < r
  queueLeaf : ∀ q ∈ queue, ∃ a ps, nodes[q]? = some (Node.leaf a ps) ∧ ps ≠ []
  queueNodup : queue.Nodup
  doneOk : ∀ (j : ℕ) (a : Aabb3d) (ps : List ℕ),
    nodes[j]? = some (Node.leaf a ps) →
    j ∈ queue ∨ ps.length ≤ maximumPrimitivePerLeaf ∨
      pickBest (splitCandidates cent fab a ps) = none
  reach : ∀ j, j < nodes.length → Desc nodes 0 j

/-- The running AABB-merge used inside a bucket (and for characterizations):
fold each box into an optional accumulator. -/
def mergeOptList (init : Option Aabb3d) (l : List Aabb3d) : Option Aabb3d :=
  l.foldl (fun acc x =>
    some (match acc with
      | none => x
      | some a => a.merge x)) init

/-- The bucket filter for bin `b`. -/
def binPred (cent : ℕ → Vec3) (rootAabb : Aabb3d) (axis b : ℕ) (f : ℕ) : Bool :=
  decide (bucketIndex cent rootAabb axis f = b)

/-! ## Concrete scenario data -/

/-- The unit quad of spec scenario A. -/
def quadVertices : List Vec3 := [⟨0, 0, 0⟩, ⟨1, 0, 0⟩, ⟨1, 1, 0⟩, ⟨0, 1, 0⟩]

/-- Scenario A hitting ray: origin `(0.5, 0.5, 1)`, direction `(0, 0, -1)`. -/
def rayHitQuad : RayCast3d := ⟨⟨1/2, 1/2, 1⟩, ⟨0, 0, -1⟩, 1000⟩

/-- Scenario A missing ray: origin `(0.5, -0.5, 1)`, direction `(0, 0, -1)`. -/
def rayMissQuad : RayCast3d := ⟨⟨1/2, -1/2, 1⟩, ⟨0, 0, -1⟩, 1000⟩

/-- Scenario B torus: ring radius 1, thickness 0.5, centered at the origin. -/
def torusB : Torus := ⟨1, 1/2, ⟨0, 0, 0⟩, Quat.IDENTITY⟩

/-- Scenario C torus: scenario B translated to `(0, 0, -10)`. -/
def torusC : Torus := ⟨1, 1/2, ⟨0, 0, -10⟩, Quat.IDENTITY⟩

/-- The torus scenarios' ray: origin `(0,0,0)`, direction `(0,0,-1)`. -/
def rayTorus : RayCast3d := ⟨⟨0, 0, 0⟩, ⟨0, 0, -1⟩, 1000⟩

/-- The spec's acceptance conditions for one fan triangle (the range check
against the ray's maximum lives in `ray_intersects_convex_plane_at`, not
here): the ray is not near-parallel to the plane (`|a| ≥ 1e-5`), the
barycentric coordinates lie in `[0, 1]` with sum at most `1`, and the
distance exceeds `1e-5`. -/
def mtAccept (tri : Triangle3d) (ray : RayCast3d) : Prop :=
  let d := mtData tri ray
  eps ≤ |d.1| ∧ 0 ≤ d.2.1 ∧ d.2.1 ≤ 1 ∧ 0 ≤ d.2.2.1 ∧ d.2.2.1 ≤ 1 ∧
    d.2.1 + d.2.2.1 ≤ 1 ∧ eps < d.2.2.2

/-- The parametric distance of the MT test. -/
def mtDistance (tri : Triangle3d) (ray : RayCast3d) : ℚ := (mtData tri ray).2.2.2

def triSelfTest : Triangle3d := ⟨⟨0, 0, 0⟩, ⟨1, 0, 0⟩, ⟨0, 1, 0⟩⟩

/-- A ray whose hit distance is exactly its maximum range. -/
def rayAtMax : RayCast3d := ⟨⟨1/4, 1/4, 1⟩, ⟨0, 0, -1⟩, 1⟩

/-! ## Concrete build scenarios -/

/-- A thin triangle at `x = i` in the `z = 0` plane. -/
def tri9 (i : ℚ) : List Vec3 := [⟨i, 0, 0⟩, ⟨i + 1, 0, 0⟩, ⟨i, 1, 0⟩]

/-- Nine faces: eight flat triangles along the x axis plus one face far away
with `z` extent, so the build splits the root (9 > 8). -/
def mesh9 : EditableMesh :=
  ⟨[tri9 0, tri9 1, tri9 2, tri9 3, tri9 4, tri9 5, tri9 6, tri9 7,
    [⟨100, 0, -1⟩, ⟨101, 0, 1⟩, ⟨100, 1, 0⟩]]⟩

/-- A single-face mesh. -/
def mesh1 : EditableMesh := ⟨[[⟨0, 0, 0⟩, ⟨1, 0, 0⟩, ⟨0, 1, 0⟩]]⟩

/-- The BVH the build produces for `mesh1`: one root leaf. -/
def bvh1 : BoundingVolumeHierarchy :=
  ⟨[Node.leaf ⟨⟨0, 0, 0⟩, ⟨1, 1, 0⟩⟩ [0]]⟩

/-- A transform with a negative `z` scale. -/
def tfNeg : Transform := ⟨Vec3.zero, Quat.IDENTITY, ⟨1, 1, -1⟩⟩

/-- A ray along `+x` through the flat triangles of `mesh9`. -/
def rayX : RayCast3d := ⟨⟨-1, 1/2, 0⟩, ⟨1, 0, 0⟩, 1000⟩

/-- A downward ray over the single face of `mesh1`. -/
def ray1 : RayCast3d := ⟨⟨1/4, 1/4, 1⟩, ⟨0, 0, -1⟩, 1000⟩

/-- A one-element candidate pool for tie-break witnesses. -/
def candX : SplitCandidate :=
  ⟨0, 0, 1, 1, 1, ⟨Vec3.zero, Vec3.zero⟩, ⟨Vec3.zero, Vec3.zero⟩⟩

/-! ## Basic order lemmas for boxes -/

theorem Vec3.le_refl (a : Vec3) : Vec3.le a a := ⟨le_rfl, le_rfl, le_rfl⟩

theorem Vec3.le_trans {a b c : Vec3} (h1 : Vec3.le a b) (h2 : Vec3.le b c) :
    Vec3.le a c :=
  ⟨h1.1.trans h2.1, h1.2.1.trans h2.2.1, h1.2.2.trans h2.2.2⟩

theorem Vec3.cmin_le_left (a b : Vec3) : Vec3.le (Vec3.cmin a b) a :=
  ⟨min_le_left _ _, min_le_left _ _, min_le_left _ _⟩

theorem Vec3.cmin_le_right (a b : Vec3) : Vec3.le (Vec3.cmin a b) b :=
  ⟨min_le_right _ _, min_le_right _ _, min_le_right _ _⟩

theorem Vec3.le_cmax_left (a b : Vec3) : Vec3.le a (Vec3.cmax a b) :=
  ⟨le_max_left _ _, le_max_left _ _, le_max_left _ _⟩

theorem Vec3.le_cmax_right (a b : Vec3) : Vec3.le b (Vec3.cmax a b) :=
  ⟨le_max_right _ _, le_max_right _ _, le_max_right _ _⟩

theorem Vec3.le_cmin {a b c : Vec3} (h1 : Vec3.le a b) (h2 : Vec3.le a c) :
    Vec3.le a (Vec3.cmin b c) :=
  ⟨le_min h1.1 h2.1, le_min h1.2.1 h2.2.1, le_min h1.2.2 h2.2.2⟩

theorem Vec3.cmax_le {a b c : Vec3} (h1 : Vec3.le a c) (h2 : Vec3.le b c) :
    Vec3.le (Vec3.cmax a b) c :=
  ⟨max_le h1.1 h2.1, max_le h1.2.1 h2.2.1, max_le h1.2.2 h2.2.2⟩

theorem Aabb3d.inside_refl (a : Aabb3d) : a.inside a :=
  ⟨Vec3.le_refl _, Vec3.le_refl _⟩

theorem Aabb3d.inside_trans {a b c : Aabb3d} (h1 : a.inside b) (h2 : b.inside c) :
    a.inside c :=
  ⟨Vec3.le_trans h2.1 h1.1, Vec3.le_trans h1.2 h2.2⟩

theorem Aabb3d.inside_merge_left (a b : Aabb3d) : a.inside (a.merge b) :=
  ⟨Vec3.cmin_le_left _ _, Vec3.le_cmax_left _ _⟩

theorem Aabb3d.inside_merge_right (a b : Aabb3d) : b.inside (a.merge b) :=
  ⟨Vec3.cmin_le_right _ _, Vec3.le_cmax_right _ _⟩

theorem Aabb3d.merge_inside {a b c : Aabb3d} (h1 : a.inside c) (h2 : b.inside c) :
    (a.merge b).inside c :=
  ⟨Vec3.le_cmin h1.1 h2.1, Vec3.cmax_le h1.2 h2.2⟩

/-- A face AABB has `min ≤ max` componentwise. -/
theorem faceAabb_valid (face : List Vec3) :
    Vec3.le (faceAabb face).lo (faceAabb face).hi := by
  unfold faceAabb
  cases face with
  | nil => exact Vec3.le_refl _
  | cons first rest =>
    dsimp only
    suffices h : ∀ (l : List Vec3) (mm : Vec3 × Vec3), Vec3.le mm.1 mm.2 →
        Vec3.le (l.foldl (fun mm p => (Vec3.cmin p mm.1, Vec3.cmax p mm.2)) mm).1
          (l.foldl (fun mm p => (Vec3.cmin p mm.1, Vec3.cmax p mm.2)) mm).2 by
      exact h rest (first, first) (Vec3.le_refl _)
    intro l
    induction l with
    | nil => intro mm h; exact h
    | cons p rest2 ih =>
      intro mm h
      exact ih _ (Vec3.le_trans (Vec3.cmin_le_right _ _)
        (Vec3.le_trans h (Vec3.le_cmax_right _ _)))

theorem merge_valid {a b : Aabb3d} (ha : Vec3.le a.lo a.hi) (hb : Vec3.le b.lo b.hi) :
    Vec3.le (a.merge b).lo (a.merge b).hi :=
  Vec3.le_trans (Vec3.cmin_le_left _ _) (Vec3.le_trans ha (Vec3.le_cmax_left _ _))

/-- Every element of a merge-fold is inside the fold's result. -/
theorem inside_foldl_merge (l : List Aabb3d) :
    ∀ (acc : Aabb3d),
      acc.inside (l.foldl (fun acc c => acc.merge c) acc) ∧
      ∀ a ∈ l, a.inside (l.foldl (fun acc c => acc.merge c) acc) := by
  induction l with
  | nil => intro acc; exact ⟨Aabb3d.inside_refl _, by simp⟩
  | cons b rest ih =>
    intro acc
    obtain ⟨hacc, hmem⟩ := ih (acc.merge b)
    constructor
    · exact Aabb3d.inside_trans (Aabb3d.inside_merge_left _ _) hacc
    · intro a ha
      rcases List.mem_cons.mp ha with rfl | ha2
      · exact Aabb3d.inside_trans (Aabb3d.inside_merge_right _ _) hacc
      · exact hmem a ha2

/-- A merge-fold stays inside any box containing the seed and all elements. -/
theorem foldl_merge_inside {X : Aabb3d} (l : List Aabb3d) :
    ∀ (acc : Aabb3d), acc.inside X → (∀ a ∈ l, a.inside X) →
      (l.foldl (fun acc c => acc.merge c) acc).inside X := by
  induction l with
  | nil => intro acc hacc _; exact hacc
  | cons b rest ih =>
    intro acc hacc hall
    exact ih _ (Aabb3d.merge_inside hacc (hall b (by simp)))
      fun a ha => hall a (by simp [ha])

/-! ## First-minimum characterization of the candidate fold -/

theorem pickBest_foldl_spec (l : List SplitCandidate) :
    ∀ (acc : Option SplitCandidate) (c : SplitCandidate),
      l.foldl (fun best c =>
        match best with
        | none => some c
        | some b => if c.cost < b.cost then some c else some b) acc = some c →
      (∃ b, acc = some b ∧ c = b ∧ ∀ d ∈ l, b.cost ≤ d.cost) ∨
      (∃ pre suf, l = pre ++ c :: suf ∧ (∀ d ∈ pre, c.cost < d.cost) ∧
        (∀ b, acc = some b → c.cost < b.cost) ∧ (∀ d ∈ suf, c.cost ≤ d.cost)) := by
  induction l with
  | nil =>
    intro acc c h
    simp only [List.foldl_nil] at h
    exact Or.inl ⟨c, h, rfl, by simp⟩
  | cons e rest ih =>
    intro acc c h
    simp only [List.foldl_cons] at h
    cases acc with
    | none =>
      rcases ih (some e) c h with ⟨b, hb, rfl, hall⟩ | ⟨pre, suf, heq, hpre, hacc, hsuf⟩
      · injection hb with hb
        subst hb
        refine Or.inr ⟨[], rest, rfl, by simp, ?_, hall⟩
        intro b hb
        cases hb
      · refine Or.inr ⟨e :: pre, suf, by rw [heq]; rfl, ?_, ?_, hsuf⟩
        · intro d hd
          rcases List.mem_cons.mp hd with rfl | hd2
          · exact hacc d rfl
          · exact hpre d hd2
        · intro b hb
          cases hb
    | some b =>
      replace h : rest.foldl (fun best c =>
          match best with
          | none => some c
          | some b => if c.cost < b.cost then some c else some b)
          (if e.cost < b.cost then some e else some b) = some c := h
      by_cases hcb : e.cost < b.cost
      · rw [if_pos hcb] at h
        rcases ih (some e) c h with ⟨b2, hb2, rfl, hall⟩ | ⟨pre, suf, heq, hpre, hacc, hsuf⟩
        · injection hb2 with hb2
          subst hb2
          refine Or.inr ⟨[], rest, rfl, by simp, ?_, hall⟩
          intro b3 hb3
          injection hb3 with hb3
          subst hb3
          exact hcb
        · refine Or.inr ⟨e :: pre, suf, by rw [heq]; rfl, ?_, ?_, hsuf⟩
          · intro d hd
            rcases List.mem_cons.mp hd with rfl | hd2
            · exact hacc d rfl
            · exact hpre d hd2
          · intro b3 hb3
            injection hb3 with hb3
            subst hb3
            exact (hacc e rfl).trans hcb
      · rw [if_neg hcb] at h
        push_neg at hcb
        rcases ih (some b) c h with ⟨b2, hb2, rfl, hall⟩ | ⟨pre, suf, heq, hpre, hacc, hsuf⟩
        · injection hb2 with hb2
          subst hb2
          refine Or.inl ⟨_, rfl, rfl, ?_⟩
          intro d hd
          rcases List.mem_cons.mp hd with rfl | hd2
          · exact hcb
          · exact hall d hd2
        · refine Or.inr ⟨e :: pre, suf, by rw [heq]; rfl, ?_, ?_, hsuf⟩
          · intro d hd
            rcases List.mem_cons.mp hd with rfl | hd2
            · exact lt_of_lt_of_le (hacc b rfl) hcb
            · exact hpre d hd2
          · intro b3 hb3
            injection hb3 with hb3
            subst hb3
            exact hacc _ rfl

/-- `pickBest` returns the first minimum-cost candidate: every earlier
candidate costs strictly more, every later one at least as much. -/
theorem pickBest_first_min (l : List SplitCandidate) (c : SplitCandidate)
    (h : pickBest l = some c) :
    ∃ pre suf, l = pre ++ c :: suf ∧ (∀ d ∈ pre, c.cost < d.cost) ∧
      ∀ d ∈ suf, c.cost ≤ d.cost := by
  rcases pickBest_foldl_spec l none c h with ⟨b, hb, -, -⟩ | ⟨pre, suf, heq, hpre, -, hsuf⟩
  · cases hb
  · exact ⟨pre, suf, heq, hpre, hsuf⟩

theorem pickBest_mem (l : List SplitCandidate) (c : SplitCandidate)
    (h : pickBest l = some c) : c ∈ l := by
  obtain ⟨pre, suf, heq, -, -⟩ := pickBest_first_min l c h
  rw [heq]
  simp

/-! ## Characterization of the bucket accumulation -/


theorem mergeOptList_some (l : List Aabb3d) :
    ∀ (a : Aabb3d), ∃ A, mergeOptList (some a) l = some A := by
  induction l with
  | nil => intro a; exact ⟨a, rfl⟩
  | cons x rest ih => intro a; exact ih (a.merge x)

theorem mergeOptList_eq_none_iff (l : List Aabb3d) (init : Option Aabb3d) :
    mergeOptList init l = none ↔ init = none ∧ l = [] := by
  cases l with
  | nil =>
    cases init with
    | none => simp [mergeOptList]
    | some a => simp [mergeOptList]
  | cons x rest =>
    constructor
    · intro h
      exfalso
      cases init with
      | none =>
        have h2 : mergeOptList (some x) rest = none := h
        obtain ⟨A, hA⟩ := mergeOptList_some rest x
        rw [hA] at h2
        cases h2
      | some a =>
        have h2 : mergeOptList (some (a.merge x)) rest = none := h
        obtain ⟨A, hA⟩ := mergeOptList_some rest (a.merge x)
        rw [hA] at h2
        cases h2
    · rintro ⟨-, h⟩
      cases h

/-- Every box folded in is inside the result, and the seed is too. -/
theorem mergeOptList_lower (l : List Aabb3d) :
    ∀ (init : Option Aabb3d) (A : Aabb3d), mergeOptList init l = some A →
      (∀ a, init = some a → a.inside A) ∧ ∀ x ∈ l, x.inside A := by
  induction l with
  | nil =>
    intro init A h
    cases init with
    | none => cases h
    | some a =>
      injection h with h
      subst h
      exact ⟨fun a2 ha2 => by injection ha2 with ha2; rw [← ha2]; exact Aabb3d.inside_refl _,
        by simp⟩
  | cons x rest ih =>
    intro init A h
    cases init with
    | none =>
      have h2 : mergeOptList (some x) rest = some A := h
      obtain ⟨hinit, hall⟩ := ih (some x) A h2
      have hx : x.inside A := hinit x rfl
      refine ⟨(fun a ha => Option.noConfusion ha), ?_⟩
      intro y hy
      rcases List.mem_cons.mp hy with rfl | hy2
      · exact hx
      · exact hall y hy2
    | some a =>
      have h2 : mergeOptList (some (a.merge x)) rest = some A := h
      obtain ⟨hinit, hall⟩ := ih _ A h2
      have hm : (a.merge x).inside A := hinit _ rfl
      refine ⟨?_, ?_⟩
      · intro a2 ha2
        injection ha2 with ha2
        subst ha2
        exact Aabb3d.inside_trans (Aabb3d.inside_merge_left _ _) hm
      · intro y hy
        rcases List.mem_cons.mp hy with rfl | hy2
        · exact Aabb3d.inside_trans (Aabb3d.inside_merge_right _ _) hm
        · exact hall y hy2

/-- The fold result stays inside any box containing the seed and all elements. -/
theorem mergeOptList_upper {X : Aabb3d} (l : List Aabb3d) :
    ∀ (init : Option Aabb3d), (∀ a, init = some a → a.inside X) →
      (∀ x ∈ l, x.inside X) →
      ∀ A, mergeOptList init l = some A → A.inside X := by
  induction l with
  | nil =>
    intro init hinit _ A h
    cases init with
    | none => cases h
    | some a => injection h with h; rw [← h]; exact hinit a rfl
  | cons x rest ih =>
    intro init hinit hall A h
    cases init with
    | none =>
      have h2 : mergeOptList (some x) rest = some A := h
      refine ih (some x) ?_ (fun y hy => hall y (by simp [hy])) A h2
      intro a ha
      injection ha with ha
      subst ha
      exact hall x (by simp)
    | some a0 =>
      have h2 : mergeOptList (some (a0.merge x)) rest = some A := h
      refine ih _ ?_ (fun y hy => hall y (by simp [hy])) A h2
      intro a ha
      injection ha with ha
      subst ha
      exact Aabb3d.merge_inside (hinit a0 rfl) (hall x (by simp))

/-- Bin indices are always below the bucket count. -/
theorem bucketIndex_lt_bucketCount (cent : ℕ → Vec3) (rootAabb : Aabb3d)
    (axis f : ℕ) : bucketIndex cent rootAabb axis f < BUCKET_COUNT := by
  unfold bucketIndex BUCKET_COUNT
  dsimp only
  have h15 : (⌊min (((cent f).get axis - rootAabb.lo.get axis) /
      (rootAabb.hi.get axis - rootAabb.lo.get axis) * 16) 15⌋ : ℤ) ≤ 15 := by
    refine le_trans (Int.floor_le_floor (min_le_right _ _)) ?_
    norm_num
  omega


theorem mergeOptList_cons (init : Option Aabb3d) (x : Aabb3d) (l : List Aabb3d) :
    mergeOptList init (x :: l) =
      mergeOptList (some (match init with
        | none => x
        | some a => a.merge x)) l := rfl

theorem mergeOptList_bump (fab : ℕ → Aabb3d) (f : ℕ) (bk : Bucket)
    (l : List Aabb3d) :
    mergeOptList bk.aabb (fab f :: l) = mergeOptList (bumpBucket fab f bk).aabb l := by
  rw [mergeOptList_cons]
  unfold bumpBucket
  dsimp only
  cases hab : bk.aabb with
  | none => rfl
  | some a => rfl

theorem foldl_addToBucket_spec (cent : ℕ → Vec3) (fab : ℕ → Aabb3d)
    (rootAabb : Aabb3d) (axis : ℕ) (l : List ℕ) :
    ∀ (acc : List Bucket), acc.length = BUCKET_COUNT →
      ∀ b bk, b < BUCKET_COUNT → acc[b]? = some bk →
      (l.foldl (addToBucket cent fab rootAabb axis) acc)[b]? =
        some ⟨bk.primitiveCount + (l.filter (binPred cent rootAabb axis b)).length,
          mergeOptList bk.aabb ((l.filter (binPred cent rootAabb axis b)).map fab)⟩ := by
  induction l with
  | nil =>
    intro acc hlen b bk hb hbk
    simp only [List.foldl_nil, List.filter_nil, List.length_nil, Nat.add_zero,
      List.map_nil]
    rw [hbk]
    rfl
  | cons f rest ih =>
    intro acc hlen b bk hb hbk
    simp only [List.foldl_cons]
    have hbi : bucketIndex cent rootAabb axis f < acc.length := by
      rw [hlen]; exact bucketIndex_lt_bucketCount cent rootAabb axis f
    obtain ⟨bcur, hbcur⟩ : ∃ bc, acc[bucketIndex cent rootAabb axis f]? = some bc := by
      rw [List.getElem?_eq_getElem hbi]
      exact ⟨_, rfl⟩
    have hstep : addToBucket cent fab rootAabb axis acc f =
        acc.set (bucketIndex cent rootAabb axis f) (bumpBucket fab f bcur) := by
      unfold addToBucket
      rw [hbcur]
    rw [hstep]
    have hlen2 : (acc.set (bucketIndex cent rootAabb axis f)
        (bumpBucket fab f bcur)).length = BUCKET_COUNT := by
      rw [List.length_set, hlen]
    by_cases heq : bucketIndex cent rootAabb axis f = b
    · have hget : (acc.set (bucketIndex cent rootAabb axis f)
          (bumpBucket fab f bcur))[b]? = some (bumpBucket fab f bcur) := by
        rw [← heq]
        exact List.getElem?_set_self hbi
      have hbkeq : bk = bcur := by
        rw [heq] at hbcur
        exact (Option.some_inj.mp (hbcur.symm.trans hbk)).symm
      subst hbkeq
      rw [ih _ hlen2 b _ hb hget]
      have hfil : (f :: rest).filter (binPred cent rootAabb axis b) =
          f :: rest.filter (binPred cent rootAabb axis b) := by
        rw [List.filter_cons_of_pos]
        unfold binPred
        simpa using heq
      rw [hfil]
      simp only [List.length_cons, List.map_cons]
      rw [mergeOptList_bump]
      congr 2
      unfold bumpBucket
      dsimp only
      omega
    · have hget : (acc.set (bucketIndex cent rootAabb axis f)
          (bumpBucket fab f bcur))[b]? = acc[b]? := List.getElem?_set_ne heq
      rw [ih _ hlen2 b bk hb (hget.trans hbk)]
      have hfil : (f :: rest).filter (binPred cent rootAabb axis b) =
          rest.filter (binPred cent rootAabb axis b) := by
        rw [List.filter_cons_of_neg]
        unfold binPred
        simpa using heq
      rw [hfil]

/-- What each bucket of `mkBuckets` holds: the number of primitives binned
there and the merged AABB of exactly those primitives. -/
theorem mkBuckets_spec (cent : ℕ → Vec3) (fab : ℕ → Aabb3d) (rootAabb : Aabb3d)
    (axis : ℕ) (prims : List ℕ) (b : ℕ) (hb : b < BUCKET_COUNT) :
    (mkBuckets cent fab rootAabb axis prims)[b]? =
      some ⟨(prims.filter (binPred cent rootAabb axis b)).length,
        mergeOptList none ((prims.filter (binPred cent rootAabb axis b)).map fab)⟩ := by
  unfold mkBuckets
  have h := foldl_addToBucket_spec cent fab rootAabb axis prims
    (List.replicate BUCKET_COUNT ⟨0, none⟩) (by simp) b ⟨0, none⟩ hb
    (by rw [List.getElem?_replicate]; simp [hb])
  simpa using h

/-! ## Characterization of the left/right aggregates -/

theorem combineBuckets_aabb (acc b : Bucket) :
    (combineBuckets acc b).aabb = match acc.aabb, b.aabb with
      | none, x => x
      | some a, none => some a
      | some a, some c => some (a.merge c) := rfl

theorem combine_fold_count (bl : List Bucket) :
    ∀ acc, (bl.foldl combineBuckets acc).primitiveCount =
      acc.primitiveCount + (bl.map (fun bk => bk.primitiveCount)).sum := by
  induction bl with
  | nil => intro acc; simp
  | cons b rest ih =>
    intro acc
    simp only [List.foldl_cons, List.map_cons, List.sum_cons]
    rw [ih]
    show (combineBuckets acc b).primitiveCount + _ = _
    unfold combineBuckets
    dsimp only
    omega

theorem combine_fold_aabb_none (bl : List Bucket) :
    ∀ acc, ((bl.foldl combineBuckets acc).aabb = none) ↔
      (acc.aabb = none ∧ ∀ bk ∈ bl, bk.aabb = none) := by
  induction bl with
  | nil => intro acc; simp
  | cons b rest ih =>
    intro acc
    simp only [List.foldl_cons]
    rw [ih]
    have hstep : ((combineBuckets acc b).aabb = none) ↔
        (acc.aabb = none ∧ b.aabb = none) := by
      rw [combineBuckets_aabb]
      cases acc.aabb with
      | none => cases b.aabb with
        | none => simp
        | some c => simp
      | some a => cases b.aabb with
        | none => simp
        | some c => simp
    constructor
    · rintro ⟨h1, h2⟩
      obtain ⟨ha, hb⟩ := hstep.mp h1
      refine ⟨ha, ?_⟩
      intro bk hbk
      rcases List.mem_cons.mp hbk with rfl | hbk2
      · exact hb
      · exact h2 bk hbk2
    · rintro ⟨ha, hall⟩
      refine ⟨hstep.mpr ⟨ha, hall b (by simp)⟩, ?_⟩
      intro bk hbk
      exact hall bk (by simp [hbk])

theorem combine_fold_lower (bl : List Bucket) :
    ∀ (acc : Bucket) (A : Aabb3d), (bl.foldl combineBuckets acc).aabb = some A →
      (∀ a, acc.aabb = some a → a.inside A) ∧
      (∀ bk ∈ bl, ∀ a, bk.aabb = some a → a.inside A) := by
  induction bl with
  | nil =>
    intro acc A h
    simp only [List.foldl_nil] at h
    refine ⟨?_, by simp⟩
    intro a ha
    rw [ha] at h
    injection h with h
    rw [← h]
    exact Aabb3d.inside_refl _
  | cons b rest ih =>
    intro acc A h
    simp only [List.foldl_cons] at h
    obtain ⟨hacc2, hrest⟩ := ih (combineBuckets acc b) A h
    have hcomb : ∀ z, (combineBuckets acc b).aabb = some z → z.inside A := hacc2
    constructor
    · intro a ha
      rcases hb : b.aabb with - | c
      · refine hcomb a ?_
        rw [combineBuckets_aabb, ha, hb]
      · exact Aabb3d.inside_trans (Aabb3d.inside_merge_left _ _)
          (hcomb _ (by rw [combineBuckets_aabb, ha, hb]))
    · intro bk hbk a ha
      rcases List.mem_cons.mp hbk with rfl | hbk2
      · rcases hacc : acc.aabb with - | a0
        · refine hcomb a ?_
          rw [combineBuckets_aabb, hacc, ha]
        · exact Aabb3d.inside_trans (Aabb3d.inside_merge_right _ _)
            (hcomb _ (by rw [combineBuckets_aabb, hacc, ha]))
      · exact hrest bk hbk2 a ha

theorem combine_fold_upper {X : Aabb3d} (bl : List Bucket) :
    ∀ (acc : Bucket), (∀ a, acc.aabb = some a → a.inside X) →
      (∀ bk ∈ bl, ∀ a, bk.aabb = some a → a.inside X) →
      ∀ A, (bl.foldl combineBuckets acc).aabb = some A → A.inside X := by
  induction bl with
  | nil =>
    intro acc hacc _ A h
    exact hacc A h
  | cons b rest ih =>
    intro acc hacc hall A h
    simp only [List.foldl_cons] at h
    refine ih (combineBuckets acc b) ?_
      (fun bk hbk => hall bk (by simp [hbk])) A h
    intro a ha
    rw [combineBuckets_aabb] at ha
    rcases h1 : acc.aabb with - | a0 <;> rcases h2 : b.aabb with - | c <;>
        rw [h1, h2] at ha
    · cases ha
    · injection ha with ha
      subst ha
      exact hall b (by simp) _ h2
    · injection ha with ha
      subst ha
      exact hacc _ h1
    · injection ha with ha
      subst ha
      exact Aabb3d.merge_inside (hacc a0 h1) (hall b (by simp) c h2)

/-! ## Counting: bin sums against centroid filters -/

theorem filter_lt_succ (idx : ℕ → ℕ) (l : List ℕ) (i : ℕ) :
    (l.filter fun f => decide (idx f < i + 1)).length =
      (l.filter fun f => decide (idx f < i)).length +
      (l.filter fun f => decide (idx f = i)).length := by
  induction l with
  | nil => simp
  | cons f rest ih =>
    simp only [List.filter_cons]
    by_cases h1 : idx f < i + 1 <;> by_cases h2 : idx f < i <;>
      by_cases h3 : idx f = i <;> simp [h1, h2, h3, ih] <;> omega

theorem filter_length_split (p : ℕ → Bool) (l : List ℕ) :
    (l.filter p).length + (l.filter fun f => !(p f)).length = l.length := by
  induction l with
  | nil => simp
  | cons f rest ih =>
    simp only [List.filter_cons]
    cases hp : p f <;> simp [hp] <;> omega

/-- The bin counts of the first `i` buckets sum to the number of primitives
whose bin is below `i`. -/
theorem sum_take_counts (cent : ℕ → Vec3) (fab : ℕ → Aabb3d) (rootAabb : Aabb3d)
    (axis : ℕ) (prims : List ℕ) :
    ∀ i, i ≤ BUCKET_COUNT →
      (((mkBuckets cent fab rootAabb axis prims).take i).map
        (fun bk => bk.primitiveCount)).sum =
      (prims.filter fun f => decide (bucketIndex cent rootAabb axis f < i)).length := by
  intro i
  induction i with
  | zero => intro _; simp
  | succ i ih =>
    intro hi
    have hi2 : i < BUCKET_COUNT := by omega
    have hlen : (mkBuckets cent fab rootAabb axis prims).length = BUCKET_COUNT := by
      unfold mkBuckets
      have : ∀ (l : List ℕ) (acc : List Bucket),
          (l.foldl (addToBucket cent fab rootAabb axis) acc).length = acc.length := by
        intro l
        induction l with
        | nil => intro acc; rfl
        | cons f rest ih2 =>
          intro acc
          simp only [List.foldl_cons]
          rw [ih2]
          unfold addToBucket
          cases h : acc[bucketIndex cent rootAabb axis f]? with
          | none => rfl
          | some b => simp [List.length_set]
      rw [this]
      simp
    rw [List.take_succ]
    rw [List.map_append, List.sum_append]
    rw [ih (by omega)]
    rw [mkBuckets_spec cent fab rootAabb axis prims i hi2]
    simp only [Option.toList_some, List.map_cons, List.map_nil, List.sum_cons,
      List.sum_nil]
    rw [filter_lt_succ (bucketIndex cent rootAabb axis) prims i]
    have : (prims.filter (binPred cent rootAabb axis i)).length =
        (prims.filter fun f => decide (bucketIndex cent rootAabb axis f = i)).length := rfl
    omega

/-- Bin index against the split position: for an interior boundary
`1 ≤ i ≤ 15` on an axis of positive extent, a face lands strictly below
bucket `i` exactly when its centroid is strictly below the boundary
position. -/
theorem bucketIndex_lt_iff (cent : ℕ → Vec3) (rootAabb : Aabb3d) (axis f i : ℕ)
    (h1 : 1 ≤ i) (h15 : i ≤ 15)
    (hlt : rootAabb.lo.get axis < rootAabb.hi.get axis) :
    bucketIndex cent rootAabb axis f < i ↔
      (cent f).get axis < rootAabb.lo.get axis +
        ((i : ℚ) / (BUCKET_COUNT : ℚ)) * (rootAabb.hi.get axis - rootAabb.lo.get axis) := by
  unfold bucketIndex BUCKET_COUNT
  dsimp only
  have hrange : (0:ℚ) < rootAabb.hi.get axis - rootAabb.lo.get axis := by linarith
  rw [show ((16:ℕ):ℚ) = (16:ℚ) by norm_num]
  rw [Int.toNat_lt' (by omega : i ≠ 0)]
  rw [Int.floor_lt]
  rw [min_lt_iff]
  have h15q : ¬((15:ℚ) < (i:ℚ)) := by
    push_neg
    exact_mod_cast h15
  have hmain : (((cent f).get axis - rootAabb.lo.get axis) /
      (rootAabb.hi.get axis - rootAabb.lo.get axis) * 16 < (i:ℚ)) ↔
      (cent f).get axis < rootAabb.lo.get axis +
        ((i : ℚ) / 16) * (rootAabb.hi.get axis - rootAabb.lo.get axis) := by
    rw [div_mul_eq_mul_div, div_lt_iff hrange]
    have hq : ((i:ℚ) / 16) * (rootAabb.hi.get axis - rootAabb.lo.get axis) =
        ((i:ℚ) * (rootAabb.hi.get axis - rootAabb.lo.get axis)) / 16 := by ring
    rw [hq]
    constructor <;> intro h <;> nlinarith
  constructor
  · intro h
    rcases h with h | h
    · exact hmain.mp h
    · exact absurd h h15q
  · intro h
    exact Or.inl (hmain.mpr h)

/-! ## The split-candidate specification -/

theorem Vec3.le_get {a b : Vec3} (h : Vec3.le a b) (axis : ℕ) :
    a.get axis ≤ b.get axis := by
  unfold Vec3.get
  match axis with
  | 0 => exact h.1
  | 1 => exact h.2.1
  | n + 2 => exact h.2.2

/-- On a flat axis (zero extent) every face lands in bucket 0: the source's
`f64` division by zero yields `NaN` and bucket 15, this model's rational
division by zero yields bucket 0; either way no interior boundary separates
two non-empty sides, so no candidate arises on such an axis. -/
theorem bucketIndex_flat (cent : ℕ → Vec3) (rootAabb : Aabb3d) (axis f : ℕ)
    (h : rootAabb.hi.get axis = rootAabb.lo.get axis) :
    bucketIndex cent rootAabb axis f = 0 := by
  unfold bucketIndex
  dsimp only
  rw [h, sub_self, div_zero, zero_mul]
  rw [min_eq_left (by norm_num : (0:ℚ) ≤ 15)]
  simp

theorem mkBuckets_length (cent : ℕ → Vec3) (fab : ℕ → Aabb3d) (rootAabb : Aabb3d)
    (axis : ℕ) (prims : List ℕ) :
    (mkBuckets cent fab rootAabb axis prims).length = BUCKET_COUNT := by
  unfold mkBuckets
  have h : ∀ (l : List ℕ) (acc : List Bucket),
      (l.foldl (addToBucket cent fab rootAabb axis) acc).length = acc.length := by
    intro l
    induction l with
    | nil => intro acc; rfl
    | cons f rest ih2 =>
      intro acc
      simp only [List.foldl_cons]
      rw [ih2]
      unfold addToBucket
      cases hx : acc[bucketIndex cent rootAabb axis f]? with
      | none => rfl
      | some b => simp [List.length_set]
  rw [h]
  simp

/-- Identify a bucket list member with its `mkBuckets_spec` contents. -/
theorem mem_mkBuckets (cent : ℕ → Vec3) (fab : ℕ → Aabb3d) (rootAabb : Aabb3d)
    (axis : ℕ) (prims : List ℕ) (bk : Bucket)
    (h : bk ∈ mkBuckets cent fab rootAabb axis prims) :
    ∃ b < BUCKET_COUNT,
      bk = ⟨(prims.filter (binPred cent rootAabb axis b)).length,
        mergeOptList none ((prims.filter (binPred cent rootAabb axis b)).map fab)⟩ := by
  obtain ⟨b, hb, hget⟩ := List.getElem_of_mem h
  have hb2 : b < BUCKET_COUNT := by
    rw [← mkBuckets_length cent fab rootAabb axis prims]
    exact hb
  refine ⟨b, hb2, ?_⟩
  have hspec := mkBuckets_spec cent fab rootAabb axis prims b hb2
  rw [List.getElem?_eq_getElem hb, hget] at hspec
  exact Option.some_inj.mp hspec

/-- A bucket with a merged AABB holds at least one primitive. -/
theorem bucket_aabb_some_count_pos (cent : ℕ → Vec3) (fab : ℕ → Aabb3d)
    (rootAabb : Aabb3d) (axis : ℕ) (prims : List ℕ) (bk : Bucket)
    (h : bk ∈ mkBuckets cent fab rootAabb axis prims) (hab : bk.aabb ≠ none) :
    0 < bk.primitiveCount := by
  obtain ⟨b, -, rfl⟩ := mem_mkBuckets cent fab rootAabb axis prims bk h
  dsimp only at hab ⊢
  rcases hfil : prims.filter (binPred cent rootAabb axis b) with - | ⟨f, rest⟩
  · exfalso
    apply hab
    rw [hfil]
    simp [mergeOptList]
  · simp [hfil]

set_option maxHeartbeats 2000000 in
/-- Full specification of a produced split candidate: its sizes count the
centroid partition exactly, both sides are non-empty, each side's AABB
bounds its faces' AABBs, and both side AABBs stay inside any box bounding
all the leaf's faces. -/
theorem boundaryCandidate_spec (cent : ℕ → Vec3) (fab : ℕ → Aabb3d)
    (rootAabb : Aabb3d) (prims : List ℕ) (axis i : ℕ) (c : SplitCandidate)
    (hvalid : Vec3.le rootAabb.lo rootAabb.hi) (h1 : 1 ≤ i) (h14 : i ≤ 14)
    (hc : boundaryCandidate cent fab rootAabb prims axis i = some c) :
    c.axis = axis ∧
    c.leftSize = (prims.filter fun f => decide ((cent f).get axis < c.position)).length ∧
    c.rightSize =
      (prims.filter fun f => !decide ((cent f).get axis < c.position)).length ∧
    0 < c.leftSize ∧ 0 < c.rightSize ∧
    (∀ f ∈ prims, (cent f).get axis < c.position → (fab f).inside c.leftAabb) ∧
    (∀ f ∈ prims, ¬((cent f).get axis < c.position) → (fab f).inside c.rightAabb) ∧
    (∀ X, (∀ f ∈ prims, (fab f).inside X) →
      c.leftAabb.inside X ∧ c.rightAabb.inside X) := by
  have hlen16 := mkBuckets_length cent fab rootAabb axis prims
  have hBC : BUCKET_COUNT = 16 := rfl
  unfold boundaryCandidate at hc
  dsimp only at hc
  rcases hla : (((mkBuckets cent fab rootAabb axis prims).take i).foldl
      combineBuckets ⟨0, none⟩).aabb with - | la
  · rw [hla] at hc
    exact Option.noConfusion hc
  rcases hra : (((mkBuckets cent fab rootAabb axis prims).drop i).foldl
      combineBuckets ⟨0, none⟩).aabb with - | ra
  · rw [hla, hra] at hc
    exact Option.noConfusion hc
  rw [hla, hra] at hc
  injection hc with hc
  subst hc
  dsimp only
  -- bucket-list member at a positional index
  have hbucket : ∀ b, b < BUCKET_COUNT →
      (mkBuckets cent fab rootAabb axis prims)[b]? =
        some ⟨(prims.filter (binPred cent rootAabb axis b)).length,
          mergeOptList none ((prims.filter (binPred cent rootAabb axis b)).map fab)⟩ :=
    fun b hb => mkBuckets_spec cent fab rootAabb axis prims b hb
  -- the axis has positive extent, else there would be no right aggregate
  have hmnmx : rootAabb.lo.get axis < rootAabb.hi.get axis := by
    rcases lt_or_eq_of_le (Vec3.le_get hvalid axis) with h | h
    · exact h
    · exfalso
      have hflat : ∀ f, bucketIndex cent rootAabb axis f = 0 :=
        fun f => bucketIndex_flat cent rootAabb axis f h.symm
      have hnone : (((mkBuckets cent fab rootAabb axis prims).drop i).foldl
          combineBuckets ⟨0, none⟩).aabb = none := by
        rw [combine_fold_aabb_none]
        refine ⟨rfl, ?_⟩
        intro bk hbk
        obtain ⟨k, hk, hget⟩ := List.getElem_of_mem hbk
        have hik : i + k < BUCKET_COUNT := by
          have := List.length_drop i (mkBuckets cent fab rootAabb axis prims)
          omega
        have hidx : ((mkBuckets cent fab rootAabb axis prims).drop i)[k]? =
            (mkBuckets cent fab rootAabb axis prims)[i + k]? :=
          List.getElem?_drop _ i k
        rw [List.getElem?_eq_getElem hk, hget, hbucket (i + k) hik] at hidx
        have hfil : prims.filter (binPred cent rootAabb axis (i + k)) = [] := by
          apply List.filter_eq_nil_iff.mpr
          intro f hf
          unfold binPred
          simp only [decide_eq_true_eq]
          rw [hflat f]
          omega
        have hbk2 := Option.some_inj.mp hidx
        rw [hbk2]
        rw [hfil]
        rfl
      rw [hnone] at hra
      exact Option.noConfusion hra
  have h15 : i ≤ 15 := by omega
  have hiff : ∀ f, bucketIndex cent rootAabb axis f < i ↔
      (cent f).get axis < rootAabb.lo.get axis +
        ((i : ℚ) / (BUCKET_COUNT : ℚ)) * (rootAabb.hi.get axis - rootAabb.lo.get axis) :=
    fun f => bucketIndex_lt_iff cent rootAabb axis f i h1 h15 hmnmx
  have hfiltereq : prims.filter (fun f => decide (bucketIndex cent rootAabb axis f < i)) =
      prims.filter (fun f => decide ((cent f).get axis < rootAabb.lo.get axis +
        ((i : ℚ) / (BUCKET_COUNT : ℚ)) *
          (rootAabb.hi.get axis - rootAabb.lo.get axis))) := by
    apply List.filter_congr
    intro f _
    exact decide_eq_decide.mpr (hiff f)
  -- the left aggregate count
  have hlcount : (((mkBuckets cent fab rootAabb axis prims).take i).foldl
      combineBuckets ⟨0, none⟩).primitiveCount =
      (prims.filter (fun f => decide (bucketIndex cent rootAabb axis f < i))).length := by
    rw [combine_fold_count]
    dsimp only
    have := sum_take_counts cent fab rootAabb axis prims i (by omega)
    omega
  -- total count over all buckets
  have htotal : (((mkBuckets cent fab rootAabb axis prims)).map
      (fun bk => bk.primitiveCount)).sum = prims.length := by
    have h16 := sum_take_counts cent fab rootAabb axis prims BUCKET_COUNT le_rfl
    rw [List.take_of_length_le (le_of_eq hlen16)] at h16
    rw [h16]
    have : prims.filter (fun f => decide (bucketIndex cent rootAabb axis f <
        BUCKET_COUNT)) = prims := by
      rw [List.filter_eq_self]
      intro f _
      simp only [decide_eq_true_eq]
      exact bucketIndex_lt_bucketCount cent rootAabb axis f
    rw [this]
  -- the right aggregate count
  have hrcount : (((mkBuckets cent fab rootAabb axis prims).drop i).foldl
      combineBuckets ⟨0, none⟩).primitiveCount =
      prims.length -
      (prims.filter (fun f => decide (bucketIndex cent rootAabb axis f < i))).length := by
    have hsplit : ((((mkBuckets cent fab rootAabb axis prims).take i).map
        (fun bk => bk.primitiveCount)).sum) +
        ((((mkBuckets cent fab rootAabb axis prims).drop i).map
        (fun bk => bk.primitiveCount)).sum) =
        (((mkBuckets cent fab rootAabb axis prims)).map
        (fun bk => bk.primitiveCount)).sum := by
      conv_rhs => rw [← List.take_append_drop i (mkBuckets cent fab rootAabb axis prims)]
      rw [List.map_append, List.sum_append]
    have := sum_take_counts cent fab rootAabb axis prims i (by omega)
    rw [combine_fold_count]
    dsimp only
    omega
  have hfillen : (prims.filter (fun f => decide (bucketIndex cent rootAabb axis f
      < i))).length ≤ prims.length := List.length_filter_le _ _
  have hneglen : (prims.filter (fun f => !decide ((cent f).get axis <
      rootAabb.lo.get axis + ((i : ℚ) / (BUCKET_COUNT : ℚ)) *
        (rootAabb.hi.get axis - rootAabb.lo.get axis)))).length =
      prims.length - (prims.filter (fun f => decide ((cent f).get axis <
      rootAabb.lo.get axis + ((i : ℚ) / (BUCKET_COUNT : ℚ)) *
        (rootAabb.hi.get axis - rootAabb.lo.get axis)))).length := by
    have := filter_length_split (fun f => decide ((cent f).get axis <
      rootAabb.lo.get axis + ((i : ℚ) / (BUCKET_COUNT : ℚ)) *
        (rootAabb.hi.get axis - rootAabb.lo.get axis))) prims
    omega
  -- membership of positional buckets in the take/drop slices
  have htakemem : ∀ b, b < i →
      (⟨(prims.filter (binPred cent rootAabb axis b)).length,
        mergeOptList none ((prims.filter (binPred cent rootAabb axis b)).map fab)⟩ :
        Bucket) ∈ (mkBuckets cent fab rootAabb axis prims).take i := by
    intro b hb
    have hb16 : b < BUCKET_COUNT := by omega
    have : ((mkBuckets cent fab rootAabb axis prims).take i)[b]? =
        (mkBuckets cent fab rootAabb axis prims)[b]? :=
      List.getElem?_take_of_lt hb
    rw [hbucket b hb16] at this
    exact List.getElem?_mem this
  have hdropmem : ∀ b, i ≤ b → b < BUCKET_COUNT →
      (⟨(prims.filter (binPred cent rootAabb axis b)).length,
        mergeOptList none ((prims.filter (binPred cent rootAabb axis b)).map fab)⟩ :
        Bucket) ∈ (mkBuckets cent fab rootAabb axis prims).drop i := by
    intro b hbi hb16
    have : ((mkBuckets cent fab rootAabb axis prims).drop i)[b - i]? =
        (mkBuckets cent fab rootAabb axis prims)[i + (b - i)]? :=
      List.getElem?_drop _ i (b - i)
    rw [show i + (b - i) = b by omega] at this
    rw [hbucket b hb16] at this
    exact List.getElem?_mem this
  -- a face's AABB is inside its own bucket's merged AABB
  have hfacebucket : ∀ f ∈ prims, ∃ A,
      mergeOptList none ((prims.filter (binPred cent rootAabb axis
        (bucketIndex cent rootAabb axis f))).map fab) = some A ∧
      (fab f).inside A := by
    intro f hf
    have hmemf : f ∈ prims.filter (binPred cent rootAabb axis
        (bucketIndex cent rootAabb axis f)) := by
      rw [List.mem_filter]
      exact ⟨hf, by unfold binPred; simp⟩
    have hmemfab : fab f ∈ (prims.filter (binPred cent rootAabb axis
        (bucketIndex cent rootAabb axis f))).map fab := List.mem_map_of_mem fab hmemf
    rcases hres : mergeOptList none ((prims.filter (binPred cent rootAabb axis
        (bucketIndex cent rootAabb axis f))).map fab) with - | A
    · exfalso
      obtain ⟨-, hnil⟩ := (mergeOptList_eq_none_iff _ _).mp hres
      rw [hnil] at hmemfab
      exact absurd hmemfab (List.not_mem_nil _)
    · exact ⟨A, rfl, ((mergeOptList_lower _ none A hres).2) (fab f) hmemfab⟩
  -- an arbitrary bucket's merged AABB is bounded by any box bounding all faces
  have hbucketupper : ∀ (X : Aabb3d), (∀ f ∈ prims, (fab f).inside X) →
      ∀ (bk : Bucket), bk ∈ mkBuckets cent fab rootAabb axis prims →
      ∀ a, bk.aabb = some a → a.inside X := by
    intro X hX bk hbk a ha
    obtain ⟨b, -, rfl⟩ := mem_mkBuckets cent fab rootAabb axis prims bk hbk
    dsimp only at ha
    refine mergeOptList_upper _ none (fun z hz => Option.noConfusion hz) ?_ a ha
    intro x hx
    obtain ⟨f, hfmem, rfl⟩ := List.mem_map.mp hx
    exact hX f (List.mem_of_mem_filter hfmem)
  refine ⟨rfl, ?_, ?_, ?_, ?_, ?_, ?_, ?_⟩
  · rw [hlcount, hfiltereq]
  · rw [hrcount, hneglen, hfiltereq]
  · -- left aggregate non-empty
    by_contra hzero
    push_neg at hzero
    have hzero2 : (((mkBuckets cent fab rootAabb axis prims).take i).foldl
        combineBuckets ⟨0, none⟩).primitiveCount = 0 := by omega
    -- some bucket in the take slice has a merged AABB
    have : ¬((⟨0, none⟩ : Bucket).aabb = none ∧
        ∀ bk ∈ (mkBuckets cent fab rootAabb axis prims).take i, bk.aabb = none) := by
      intro hcon
      have := (combine_fold_aabb_none _ _).mpr hcon
      rw [this] at hla
      exact Option.noConfusion hla
    push_neg at this
    obtain ⟨bk, hbkmem, hbka⟩ := this rfl
    have hpos := bucket_aabb_some_count_pos cent fab rootAabb axis prims bk
      (List.mem_of_mem_take hbkmem) hbka
    have hle : bk.primitiveCount ≤
        (((mkBuckets cent fab rootAabb axis prims).take i).map
          (fun bk2 => bk2.primitiveCount)).sum :=
      List.single_le_sum (fun x _ => Nat.zero_le x) _
        (List.mem_map_of_mem _ hbkmem)
    rw [combine_fold_count] at hzero2
    dsimp only at hzero2
    omega
  · -- right aggregate non-empty
    by_contra hzero
    push_neg at hzero
    have hzero2 : (((mkBuckets cent fab rootAabb axis prims).drop i).foldl
        combineBuckets ⟨0, none⟩).primitiveCount = 0 := by omega
    have : ¬((⟨0, none⟩ : Bucket).aabb = none ∧
        ∀ bk ∈ (mkBuckets cent fab rootAabb axis prims).drop i, bk.aabb = none) := by
      intro hcon
      have := (combine_fold_aabb_none _ _).mpr hcon
      rw [this] at hra
      exact Option.noConfusion hra
    push_neg at this
    obtain ⟨bk, hbkmem, hbka⟩ := this rfl
    have hpos := bucket_aabb_some_count_pos cent fab rootAabb axis prims bk
      (List.mem_of_mem_drop hbkmem) hbka
    have hle : bk.primitiveCount ≤
        (((mkBuckets cent fab rootAabb axis prims).drop i).map
          (fun bk2 => bk2.primitiveCount)).sum :=
      List.single_le_sum (fun x _ => Nat.zero_le x) _
        (List.mem_map_of_mem _ hbkmem)
    rw [combine_fold_count] at hzero2
    dsimp only at hzero2
    omega
  · -- left containment
    intro f hf hlt
    have hbi : bucketIndex cent rootAabb axis f < i := (hiff f).mpr hlt
    obtain ⟨A, hA, hfA⟩ := hfacebucket f hf
    have hmem := htakemem (bucketIndex cent rootAabb axis f) hbi
    have hlow := (combine_fold_lower _ ⟨0, none⟩ la hla).2 _ hmem A (by
      dsimp only
      exact hA)
    exact Aabb3d.inside_trans hfA hlow
  · -- right containment
    intro f hf hnlt
    have hbi : ¬(bucketIndex cent rootAabb axis f < i) := fun hcon =>
      hnlt ((hiff f).mp hcon)
    obtain ⟨A, hA, hfA⟩ := hfacebucket f hf
    have hmem := hdropmem (bucketIndex cent rootAabb axis f) (by omega)
      (bucketIndex_lt_bucketCount cent rootAabb axis f)
    have hlow := (combine_fold_lower _ ⟨0, none⟩ ra hra).2 _ hmem A (by
      dsimp only
      exact hA)
    exact Aabb3d.inside_trans hfA hlow
  · -- both aggregates bounded by any bounding box
    intro X hX
    constructor
    · refine combine_fold_upper _ ⟨0, none⟩ (fun a ha => Option.noConfusion ha)
        ?_ la hla
      intro bk hbk a ha
      exact hbucketupper X hX bk (List.mem_of_mem_take hbk) a ha
    · refine combine_fold_upper _ ⟨0, none⟩ (fun a ha => Option.noConfusion ha)
        ?_ ra hra
      intro bk hbk a ha
      exact hbucketupper X hX bk (List.mem_of_mem_drop hbk) a ha

/-! ## The split procedure -/

/-- The asserts at the `continue`d boundaries always hold: an aggregate with
no AABB has a zero primitive count. -/
theorem combine_assert_holds (cent : ℕ → Vec3) (fab : ℕ → Aabb3d)
    (rootAabb : Aabb3d) (axis : ℕ) (prims : List ℕ) (l : List Bucket)
    (hsub : ∀ bk ∈ l, bk ∈ mkBuckets cent fab rootAabb axis prims)
    (hnone : (l.foldl combineBuckets ⟨0, none⟩).aabb = none) :
    (l.foldl combineBuckets ⟨0, none⟩).primitiveCount = 0 := by
  obtain ⟨-, hall⟩ := (combine_fold_aabb_none l _).mp hnone
  rw [combine_fold_count]
  dsimp only
  have hzero : ∀ bk ∈ l, bk.primitiveCount = 0 := by
    intro bk hbk
    obtain ⟨b, -, rfl⟩ := mem_mkBuckets cent fab rootAabb axis prims bk (hsub bk hbk)
    have h0 := hall _ hbk
    dsimp only at h0 ⊢
    obtain ⟨-, hnil⟩ := (mergeOptList_eq_none_iff _ _).mp h0
    rw [List.map_eq_nil_iff] at hnil
    rw [hnil]
    rfl
  have hsum : (l.map (fun bk => bk.primitiveCount)).sum = 0 := by
    apply List.sum_eq_zero
    intro x hx
    obtain ⟨bk, hbk, rfl⟩ := List.mem_map.mp hx
    exact hzero bk hbk
  omega

/-- Every candidate in the pool arises from some axis and interior boundary. -/
theorem mem_splitCandidates {cent : ℕ → Vec3} {fab : ℕ → Aabb3d}
    {rootAabb : Aabb3d} {prims : List ℕ} {c : SplitCandidate}
    (h : c ∈ splitCandidates cent fab rootAabb prims) :
    ∃ axis, axis < 3 ∧ ∃ i, 1 ≤ i ∧ i ≤ 14 ∧
      boundaryCandidate cent fab rootAabb prims axis i = some c := by
  unfold splitCandidates at h
  rw [List.mem_flatMap] at h
  obtain ⟨axis, haxis, h2⟩ := h
  rw [List.mem_range] at haxis
  rw [List.mem_filterMap] at h2
  obtain ⟨i, hi, hbc⟩ := h2
  rw [List.mem_range'_1] at hi
  have hb14 : BUCKET_COUNT - 2 = 14 := rfl
  exact ⟨axis, haxis, i, hi.1, by omega, hbc⟩

/-- Full behavior of `split_node` on a leaf with a valid box: either no
boundary produced a candidate and nothing happens, or the node is rewritten
into a non-leaf whose two fresh children partition the primitives by
centroid, non-trivially, with face boxes inside the child boxes. -/
theorem splitNode_spec (cent : ℕ → Vec3) (fab : ℕ → Aabb3d) (nodes : List Node)
    (idx : ℕ) (rootAabb : Aabb3d) (prims : List ℕ)
    (hnode : nodes[idx]? = some (Node.leaf rootAabb prims))
    (hvalid : Vec3.le rootAabb.lo rootAabb.hi) :
    (splitNode cent fab nodes idx = SplitResult.noSplit ∧
      pickBest (splitCandidates cent fab rootAabb prims) = none) ∨
    (∃ c, pickBest (splitCandidates cent fab rootAabb prims) = some c ∧
      splitNode cent fab nodes idx = SplitResult.ok
        ((nodes.set idx (Node.nonLeaf nodes.length (nodes.length + 1) rootAabb)) ++
          [Node.leaf c.leftAabb (prims.filter fun f =>
              decide ((cent f).get c.axis < c.position)),
           Node.leaf c.rightAabb (prims.filter fun f =>
              !decide ((cent f).get c.axis < c.position))])
        nodes.length (nodes.length + 1) ∧
      0 < (prims.filter fun f => decide ((cent f).get c.axis < c.position)).length ∧
      0 < (prims.filter fun f => !decide ((cent f).get c.axis < c.position)).length ∧
      (∀ f ∈ prims.filter fun f => decide ((cent f).get c.axis < c.position),
        (fab f).inside c.leftAabb) ∧
      (∀ f ∈ prims.filter fun f => !decide ((cent f).get c.axis < c.position),
        (fab f).inside c.rightAabb) ∧
      (∀ X, (∀ f ∈ prims, (fab f).inside X) →
        c.leftAabb.inside X ∧ c.rightAabb.inside X)) := by
  rcases hpb : pickBest (splitCandidates cent fab rootAabb prims) with - | c
  · left
    refine ⟨?_, rfl⟩
    simp only [splitNode, hnode, hpb]
  · right
    obtain ⟨axis, haxis, i, h1, h14, hbc⟩ :=
      mem_splitCandidates (pickBest_mem _ c hpb)
    obtain ⟨hax, hls, hrs, hlpos, hrpos, hlin, hrin, hup⟩ :=
      boundaryCandidate_spec cent fab rootAabb prims axis i c hvalid h1 h14 hbc
    subst hax
    have hcond : prims.length =
        (c.leftSize : ℕ) + c.rightSize ∧
        (prims.filter fun f => decide ((cent f).get c.axis < c.position)).length =
          c.leftSize ∧
        (prims.filter fun f => !decide ((cent f).get c.axis < c.position)).length =
          c.rightSize := by
      have hsplit := filter_length_split
        (fun f => decide ((cent f).get c.axis < c.position)) prims
      refine ⟨by omega, hls.symm, hrs.symm⟩
    refine ⟨c, rfl, ?_, by omega, by omega, ?_, ?_, hup⟩
    · simp only [splitNode, hnode, hpb]
      rw [if_pos hcond]
    · intro f hf
      rw [List.mem_filter] at hf
      exact hlin f hf.1 (of_decide_eq_true hf.2)
    · intro f hf
      rw [List.mem_filter] at hf
      have : ¬((cent f).get c.axis < c.position) := by
        intro hcon
        rw [Bool.not_eq_true'] at hf
        rcases hf with ⟨-, hf2⟩
        rw [decide_eq_false_iff_not] at hf2
        exact hf2 hcon
      exact hrin f hf.1 this

/-! ## Bookkeeping for the node-array rewrite of a split -/

theorem lt_length_of_getElem?_some {α : Type} {l : List α} {n : ℕ} {x : α}
    (h : l[n]? = some x) : n < l.length := by
  by_contra hc
  push_neg at hc
  rw [List.getElem?_eq_none hc] at h
  exact Option.noConfusion h

theorem leavesPrims_cons (x : Node) (xs : List Node) :
    leavesPrims (x :: xs) = nodePrims x + leavesPrims xs := by
  unfold leavesPrims
  rw [List.map_cons, List.sum_cons]

theorem leavesPrims_append (xs ys : List Node) :
    leavesPrims (xs ++ ys) = leavesPrims xs + leavesPrims ys := by
  unfold leavesPrims
  rw [List.map_append, List.sum_append]

/-- Overwriting one node exchanges its contribution to the leaf multiset. -/
theorem leavesPrims_set_swap :
    ∀ (nodes : List Node) (idx : ℕ) (old new2 : Node),
      nodes[idx]? = some old →
      leavesPrims (nodes.set idx new2) + nodePrims old =
        leavesPrims nodes + nodePrims new2 := by
  intro nodes
  induction nodes with
  | nil => intro idx old new2 h; cases h
  | cons x rest ih =>
    intro idx old new2 h
    cases idx with
    | zero =>
      rw [List.getElem?_cons_zero] at h
      injection h with h
      subst h
      rw [List.set_cons_zero, leavesPrims_cons, leavesPrims_cons]
      abel
    | succ n =>
      rw [List.getElem?_cons_succ] at h
      rw [List.set_cons_succ, leavesPrims_cons, leavesPrims_cons]
      have := ih n old new2 h
      calc nodePrims x + leavesPrims (rest.set n new2) + nodePrims old
          = nodePrims x + (leavesPrims (rest.set n new2) + nodePrims old) := by abel
        _ = nodePrims x + (leavesPrims rest + nodePrims new2) := by rw [this]
        _ = nodePrims x + leavesPrims rest + nodePrims new2 := by abel

theorem getElem?_set_append_ne (nodes : List Node) (idx j : ℕ) (x : Node)
    (L : List Node) (hne : j ≠ idx) (hj : j < nodes.length) :
    ((nodes.set idx x) ++ L)[j]? = nodes[j]? := by
  rw [List.getElem?_append_left (by rw [List.length_set]; exact hj)]
  exact List.getElem?_set_ne (fun hc => hne hc.symm)

theorem getElem?_set_append_self (nodes : List Node) (idx : ℕ) (x : Node)
    (L : List Node) (hidx : idx < nodes.length) :
    ((nodes.set idx x) ++ L)[idx]? = some x := by
  rw [List.getElem?_append_left (by rw [List.length_set]; exact hidx)]
  exact List.getElem?_set_self hidx

theorem getElem?_set_append_fst (nodes : List Node) (idx : ℕ) (x a b : Node) :
    ((nodes.set idx x) ++ [a, b])[nodes.length]? = some a := by
  rw [List.getElem?_append_right (by rw [List.length_set])]
  rw [List.length_set]
  simp

theorem getElem?_set_append_snd (nodes : List Node) (idx : ℕ) (x a b : Node) :
    ((nodes.set idx x) ++ [a, b])[nodes.length + 1]? = some b := by
  rw [List.getElem?_append_right (by rw [List.length_set]; omega)]
  rw [List.length_set]
  simp

/-- Descent is preserved by any rewrite that keeps every non-leaf entry. -/
theorem Desc_mono {nodes nodes2 : List Node}
    (h : ∀ (j l r : ℕ) (a : Aabb3d), nodes[j]? = some (Node.nonLeaf l r a) →
      nodes2[j]? = some (Node.nonLeaf l r a)) :
    ∀ {i j : ℕ}, Desc nodes i j → Desc nodes2 i j := by
  intro i j hd
  induction hd with
  | refl => exact Desc.refl i
  | child j l r c a hd hlook hor ih =>
    exact Desc.child i j l r c a ih (h j l r a hlook) hor

theorem queueMeasure_nil (nodes : List Node) : queueMeasure nodes [] = 0 := rfl

theorem queueMeasure_cons (nodes : List Node) (q : ℕ) (rest : List ℕ)
    (a : Aabb3d) (ps : List ℕ) (h : nodes[q]? = some (Node.leaf a ps)) :
    queueMeasure nodes (q :: rest) =
      (2 * ps.length - 1) + queueMeasure nodes rest := by
  unfold queueMeasure
  rw [List.map_cons, List.sum_cons, h]

theorem queueMeasure_append (nodes : List Node) (q1 q2 : List ℕ) :
    queueMeasure nodes (q1 ++ q2) =
      queueMeasure nodes q1 + queueMeasure nodes q2 := by
  unfold queueMeasure
  rw [List.map_append, List.sum_append]

theorem queueMeasure_congr (nodes nodes2 : List Node) (queue : List ℕ)
    (h : ∀ q ∈ queue, nodes2[q]? = nodes[q]?) :
    queueMeasure nodes2 queue = queueMeasure nodes queue := by
  unfold queueMeasure
  congr 1
  apply List.map_congr_left
  intro q hq
  rw [h q hq]

set_option maxHeartbeats 2000000 in
/-- Master lemma: from an invariant state with enough fuel, the build loop
terminates without panicking, preserves the leaf multiset, grows the node
array, and ends in an invariant state with an empty queue. -/
theorem buildLoop_spec (cent : ℕ → Vec3) (fab : ℕ → Aabb3d)
    (hfab : ∀ f, Vec3.le (fab f).lo (fab f).hi) :
    ∀ (fuel : ℕ) (nodes : List Node) (queue : List ℕ),
      BuildInv cent fab nodes queue →
      queueMeasure nodes queue ≤ fuel →
      ∃ nodes2, buildLoop cent fab fuel nodes queue = some nodes2 ∧
        leavesPrims nodes2 = leavesPrims nodes ∧
        nodes.length ≤ nodes2.length ∧
        BuildInv cent fab nodes2 [] := by
  intro fuel
  induction fuel with
  | zero =>
    intro nodes queue hinv hm
    cases queue with
    | nil => exact ⟨nodes, rfl, rfl, le_rfl, hinv⟩
    | cons top rest =>
      exfalso
      obtain ⟨a, ps, hlook, hne⟩ := hinv.queueLeaf top (by simp)
      have hlen : 0 < ps.length := List.length_pos.mpr hne
      have hmc := queueMeasure_cons nodes top rest a ps hlook
      omega
  | succ fuel ih =>
    intro nodes queue hinv hm
    cases queue with
    | nil => exact ⟨nodes, rfl, rfl, le_rfl, hinv⟩
    | cons top rest =>
      obtain ⟨a, ps, hlook, hne⟩ := hinv.queueLeaf top (by simp)
      have hlenps : 0 < ps.length := List.length_pos.mpr hne
      have hmc := queueMeasure_cons nodes top rest a ps hlook
      have htopnotin : top ∉ rest := (List.nodup_cons.mp hinv.queueNodup).1
      by_cases hsmall : ps.length ≤ maximumPrimitivePerLeaf
      · have hstep : buildLoop cent fab (fuel + 1) nodes (top :: rest) =
            buildLoop cent fab fuel nodes rest := by
          simp only [buildLoop, hlook]
          rw [if_pos hsmall]
        rw [hstep]
        refine ih nodes rest ⟨hinv.leafValid, hinv.leafCont, hinv.childOk,
          hinv.childIdx, ?_, ?_, ?_, hinv.reach⟩ (by omega)
        · intro q hq
          exact hinv.queueLeaf q (by simp [hq])
        · exact hinv.queueNodup.of_cons
        · intro j a2 ps2 hj
          rcases hinv.doneOk j a2 ps2 hj with hmem | hrest2
          · rcases List.mem_cons.mp hmem with rfl | hmem2
            · rw [hlook] at hj
              injection hj with hj
              injection hj with hja hjps
              exact Or.inr (Or.inl (by rw [← hjps]; exact hsmall))
            · exact Or.inl hmem2
          · exact Or.inr hrest2
      · push_neg at hsmall
        rcases splitNode_spec cent fab nodes top a ps hlook
            (hinv.leafValid top a ps hlook)
          with ⟨hsn, hpb⟩ | ⟨c, hpb, hsn, hlpos, hrpos, hlin, hrin, hup⟩
        · have hstep : buildLoop cent fab (fuel + 1) nodes (top :: rest) =
              buildLoop cent fab fuel nodes rest := by
            simp only [buildLoop, hlook]
            rw [if_neg (by omega), hsn]
          rw [hstep]
          refine ih nodes rest ⟨hinv.leafValid, hinv.leafCont, hinv.childOk,
            hinv.childIdx, ?_, ?_, ?_, hinv.reach⟩ (by omega)
          · intro q hq
            exact hinv.queueLeaf q (by simp [hq])
          · exact hinv.queueNodup.of_cons
          · intro j a2 ps2 hj
            rcases hinv.doneOk j a2 ps2 hj with hmem | hrest2
            · rcases List.mem_cons.mp hmem with rfl | hmem2
              · rw [hlook] at hj
                injection hj with hj
                injection hj with hja hjps
                refine Or.inr (Or.inr ?_)
                rw [← hja, ← hjps]
                exact hpb
              · exact Or.inl hmem2
            · exact Or.inr hrest2
        · have htoplt : top < nodes.length := lt_length_of_getElem?_some hlook
          set LL := ps.filter (fun f => decide ((cent f).get c.axis < c.position))
            with hLL
          set RR := ps.filter (fun f => !decide ((cent f).get c.axis < c.position))
            with hRR
          set nodes2 :=
            (nodes.set top (Node.nonLeaf nodes.length (nodes.length + 1) a)) ++
              [Node.leaf c.leftAabb LL, Node.leaf c.rightAabb RR] with hnodes2
          have hstep : buildLoop cent fab (fuel + 1) nodes (top :: rest) =
              buildLoop cent fab fuel nodes2
                (rest ++ [nodes.length, nodes.length + 1]) := by
            simp only [buildLoop, hlook]
            rw [if_neg (by omega), hsn]
          have hlen2 : nodes2.length = nodes.length + 2 := by
            rw [hnodes2]
            simp [List.length_append, List.length_set]
          have hold : ∀ j, j ≠ top → j < nodes.length → nodes2[j]? = nodes[j]? := by
            intro j h1 h2
            rw [hnodes2]
            exact getElem?_set_append_ne nodes top j _ _ h1 h2
          have htopn : nodes2[top]? =
              some (Node.nonLeaf nodes.length (nodes.length + 1) a) := by
            rw [hnodes2]
            exact getElem?_set_append_self nodes top _ _ htoplt
          have hLn : nodes2[nodes.length]? = some (Node.leaf c.leftAabb LL) := by
            rw [hnodes2]
            exact getElem?_set_append_fst nodes top _ _ _
          have hRn : nodes2[nodes.length + 1]? = some (Node.leaf c.rightAabb RR) := by
            rw [hnodes2]
            exact getElem?_set_append_snd nodes top _ _ _
          have haabbpres : ∀ (j : ℕ) (n : Node), nodes[j]? = some n →
              ∃ n2 : Node, nodes2[j]? = some n2 ∧ n2.aabb = n.aabb := by
            intro j n hj
            by_cases hjt : j = top
            · subst hjt
              rw [hlook] at hj
              injection hj with hj
              refine ⟨_, htopn, ?_⟩
              rw [← hj]
              rfl
            · exact ⟨n, by
                rw [hold j hjt (lt_length_of_getElem?_some hj)]; exact hj, rfl⟩
          have hnonleafpres : ∀ (j l r : ℕ) (a2 : Aabb3d),
              nodes[j]? = some (Node.nonLeaf l r a2) →
              nodes2[j]? = some (Node.nonLeaf l r a2) := by
            intro j l r a2 hj
            have hjt : j ≠ top := by
              intro hEq
              subst hEq
              rw [hlook] at hj
              injection hj with hj
              exact Node.noConfusion hj
            rw [hold j hjt (lt_length_of_getElem?_some hj)]
            exact hj
          have hcase : ∀ (j : ℕ) (n2 : Node), nodes2[j]? = some n2 →
              (j = top ∧ n2 = Node.nonLeaf nodes.length (nodes.length + 1) a) ∨
              (j ≠ top ∧ j < nodes.length ∧ nodes[j]? = some n2) ∨
              (j = nodes.length ∧ n2 = Node.leaf c.leftAabb LL) ∨
              (j = nodes.length + 1 ∧ n2 = Node.leaf c.rightAabb RR) := by
            intro j n2 hj
            by_cases h1 : j = top
            · subst h1
              rw [htopn] at hj
              injection hj with hj
              exact Or.inl ⟨rfl, hj.symm⟩
            · by_cases h2 : j < nodes.length
              · rw [hold j h1 h2] at hj
                exact Or.inr (Or.inl ⟨h1, h2, hj⟩)
              · have h3 : j < nodes.length + 2 := by
                  have h4 := lt_length_of_getElem?_some hj
                  omega
                push_neg at h2
                rcases (by omega : j = nodes.length ∨ j = nodes.length + 1)
                  with rfl | rfl
                · rw [hLn] at hj
                  injection hj with hj
                  exact Or.inr (Or.inr (Or.inl ⟨rfl, hj.symm⟩))
                · rw [hRn] at hj
                  injection hj with hj
                  exact Or.inr (Or.inr (Or.inr ⟨rfl, hj.symm⟩))
          have hLLne : LL ≠ [] := by
            intro hc
            rw [hc] at hlpos
            simp at hlpos
          have hRRne : RR ≠ [] := by
            intro hc
            rw [hc] at hrpos
            simp at hrpos
          have hvalidL : Vec3.le c.leftAabb.lo c.leftAabb.hi := by
            obtain ⟨f, hf⟩ := List.exists_mem_of_ne_nil LL hLLne
            have hins := hlin f hf
            exact Vec3.le_trans hins.1 (Vec3.le_trans (hfab f) hins.2)
          have hvalidR : Vec3.le c.rightAabb.lo c.rightAabb.hi := by
            obtain ⟨f, hf⟩ := List.exists_mem_of_ne_nil RR hRRne
            have hins := hrin f hf
            exact Vec3.le_trans hins.1 (Vec3.le_trans (hfab f) hins.2)
          have hcontA : ∀ f ∈ ps, (fab f).inside a := hinv.leafCont top a ps hlook
          have hinsides := hup a hcontA
          have hinv2 : BuildInv cent fab nodes2
              (rest ++ [nodes.length, nodes.length + 1]) := by
            refine ⟨?_, ?_, ?_, ?_, ?_, ?_, ?_, ?_⟩
            · intro j a2 ps2 hj
              rcases hcase j _ hj with ⟨-, heq⟩ | ⟨-, -, hjold⟩ | ⟨-, heq⟩ | ⟨-, heq⟩
              · exact Node.noConfusion heq
              · exact hinv.leafValid j a2 ps2 hjold
              · injection heq with h1 h2
                rw [h1]
                exact hvalidL
              · injection heq with h1 h2
                rw [h1]
                exact hvalidR
            · intro j a2 ps2 hj
              rcases hcase j _ hj with ⟨-, heq⟩ | ⟨-, -, hjold⟩ | ⟨-, heq⟩ | ⟨-, heq⟩
              · exact Node.noConfusion heq
              · exact hinv.leafCont j a2 ps2 hjold
              · injection heq with h1 h2
                subst h1
                subst h2
                exact hlin
              · injection heq with h1 h2
                subst h1
                subst h2
                exact hrin
            · intro j l r a2 hj
              rcases hcase j _ hj with ⟨-, heq⟩ | ⟨-, -, hjold⟩ | ⟨-, heq⟩ | ⟨-, heq⟩
              · injection heq with h1 h2 h3
                subst h1
                subst h2
                subst h3
                exact ⟨⟨_, hLn, hinsides.1⟩, ⟨_, hRn, hinsides.2⟩⟩
              · obtain ⟨⟨nl, hnl, hnlin⟩, ⟨nr, hnr, hnrin⟩⟩ :=
                  hinv.childOk j l r a2 hjold
                obtain ⟨nl2, hnl2, hnl2a⟩ := haabbpres l nl hnl
                obtain ⟨nr2, hnr2, hnr2a⟩ := haabbpres r nr hnr
                refine ⟨⟨nl2, hnl2, ?_⟩, ⟨nr2, hnr2, ?_⟩⟩
                · rw [hnl2a]
                  exact hnlin
                · rw [hnr2a]
                  exact hnrin
              · exact Node.noConfusion heq
              · exact Node.noConfusion heq
            · intro j l r a2 hj
              rcases hcase j _ hj with ⟨rfl, heq⟩ | ⟨-, -, hjold⟩ | ⟨-, heq⟩ | ⟨-, heq⟩
              · injection heq with h1 h2 h3
                subst h1
                subst h2
                omega
              · exact hinv.childIdx j l r a2 hjold
              · exact Node.noConfusion heq
              · exact Node.noConfusion heq
            · intro q hq
              rcases List.mem_append.mp hq with hq1 | hq2
              · obtain ⟨a2, ps2, hq3, hne2⟩ := hinv.queueLeaf q (by simp [hq1])
                have hqt : q ≠ top := fun hEq => htopnotin (hEq ▸ hq1)
                exact ⟨a2, ps2, by
                  rw [hold q hqt (lt_length_of_getElem?_some hq3)]; exact hq3, hne2⟩
              · simp only [List.mem_cons, List.not_mem_nil, or_false] at hq2
                rcases hq2 with rfl | rfl
                · exact ⟨c.leftAabb, LL, hLn, hLLne⟩
                · exact ⟨c.rightAabb, RR, hRn, hRRne⟩
            · refine hinv.queueNodup.of_cons.append ?_ ?_
              · simp
              · intro q hq1 hq2
                obtain ⟨a2, ps2, hq3, -⟩ := hinv.queueLeaf q (by simp [hq1])
                have hqlt : q < nodes.length := lt_length_of_getElem?_some hq3
                simp only [List.mem_cons, List.not_mem_nil, or_false] at hq2
                rcases hq2 with rfl | rfl <;> omega
            · intro j a2 ps2 hj
              rcases hcase j _ hj with ⟨-, heq⟩ | ⟨hjt, -, hjold⟩ | ⟨rfl, -⟩ | ⟨rfl, -⟩
              · exact Node.noConfusion heq
              · rcases hinv.doneOk j a2 ps2 hjold with hmem | hother
                · rcases List.mem_cons.mp hmem with rfl | hmem2
                  · exact absurd rfl hjt
                  · exact Or.inl (List.mem_append_left _ hmem2)
                · exact Or.inr hother
              · exact Or.inl (List.mem_append_right _ (by simp))
              · exact Or.inl (List.mem_append_right _ (by simp))
            · intro j hj
              rw [hlen2] at hj
              by_cases h2 : j < nodes.length
              · exact Desc_mono hnonleafpres (hinv.reach j h2)
              · have htopd : Desc nodes2 0 top :=
                  Desc_mono hnonleafpres (hinv.reach top htoplt)
                rcases (by omega : j = nodes.length ∨ j = nodes.length + 1)
                  with rfl | rfl
                · exact Desc.child 0 top nodes.length (nodes.length + 1)
                    nodes.length a htopd htopn (Or.inl rfl)
                · exact Desc.child 0 top nodes.length (nodes.length + 1)
                    (nodes.length + 1) a htopd htopn (Or.inr rfl)
          have hrestlookup : ∀ q ∈ rest, nodes2[q]? = nodes[q]? := by
            intro q hq
            obtain ⟨a2, ps2, hq3, -⟩ := hinv.queueLeaf q (by simp [hq])
            have hqt : q ≠ top := fun hEq => htopnotin (hEq ▸ hq)
            exact hold q hqt (lt_length_of_getElem?_some hq3)
          have hsizes : LL.length + RR.length = ps.length := by
            have h4 := filter_length_split
              (fun f => decide ((cent f).get c.axis < c.position)) ps
            rw [hLL, hRR]
            exact h4
          have hm2 : queueMeasure nodes2
              (rest ++ [nodes.length, nodes.length + 1]) ≤ fuel := by
            rw [queueMeasure_append]
            rw [queueMeasure_congr nodes nodes2 rest hrestlookup]
            have e1 : queueMeasure nodes2 [nodes.length, nodes.length + 1] =
                (2 * LL.length - 1) + ((2 * RR.length - 1) + 0) := by
              rw [queueMeasure_cons nodes2 _ _ _ _ hLn,
                queueMeasure_cons nodes2 _ _ _ _ hRn, queueMeasure_nil]
            rw [e1]
            have hLl : 0 < LL.length := List.length_pos.mpr hLLne
            have hRl : 0 < RR.length := List.length_pos.mpr hRRne
            omega
          rw [hstep]
          obtain ⟨nodes3, hrun, hlp, hlen3, hfin⟩ :=
            ih nodes2 (rest ++ [nodes.length, nodes.length + 1]) hinv2 hm2
          refine ⟨nodes3, hrun, ?_, by omega, hfin⟩
          rw [hlp]
          have hperm : (LL : Multiset ℕ) + (RR : Multiset ℕ) = (ps : Multiset ℕ) := by
            have hp := List.filter_append_perm
              (fun f => decide ((cent f).get c.axis < c.position)) ps
            have hcoe : ((LL ++ RR : List ℕ) : Multiset ℕ) = (ps : Multiset ℕ) := by
              rw [Multiset.coe_eq_coe]
              rw [hLL, hRR]
              exact hp
            rw [← hcoe]
            simp
          have h1 : leavesPrims nodes2 =
              leavesPrims (nodes.set top
                (Node.nonLeaf nodes.length (nodes.length + 1) a)) +
                ((LL : Multiset ℕ) + (RR : Multiset ℕ)) := by
            rw [hnodes2, leavesPrims_append, leavesPrims_cons, leavesPrims_cons]
            have e2 : leavesPrims ([] : List Node) = 0 := rfl
            have e3 : nodePrims (Node.leaf c.leftAabb LL) = (LL : Multiset ℕ) := rfl
            have e4 : nodePrims (Node.leaf c.rightAabb RR) = (RR : Multiset ℕ) := rfl
            rw [e2, e3, e4, add_zero]
          have h2 := leavesPrims_set_swap nodes top (Node.leaf a ps)
            (Node.nonLeaf nodes.length (nodes.length + 1) a) hlook
          have e5 : nodePrims (Node.leaf a ps) = (ps : Multiset ℕ) := rfl
          have e6 : nodePrims (Node.nonLeaf nodes.length (nodes.length + 1) a) =
            (0 : Multiset ℕ) := rfl
          rw [e5, e6, add_zero] at h2
          rw [h1, hperm]
          exact h2

theorem foldl_merge_valid (l : List Aabb3d) :
    ∀ acc : Aabb3d, Vec3.le acc.lo acc.hi → (∀ x ∈ l, Vec3.le x.lo x.hi) →
      Vec3.le (l.foldl (fun a c => a.merge c) acc).lo
        (l.foldl (fun a c => a.merge c) acc).hi := by
  induction l with
  | nil => intro acc h _; exact h
  | cons b rest ih =>
    intro acc h hall
    exact ih _ (merge_valid h (hall b (by simp)))
      (fun x hx => hall x (by simp [hx]))

/-- `From<&EditableMesh>` on a non-empty mesh: the build succeeds, the leaves
partition the face handles exactly, and the final tree satisfies the full
structural invariant. -/
theorem buildBVH_spec (m : EditableMesh) (hne : m.faces ≠ []) :
    ∃ bvh, buildBVH m = some bvh ∧
      leavesPrims bvh.nodes = ↑(List.range m.faces.length) ∧
      0 < bvh.nodes.length ∧
      BuildInv (fun i => faceCentroid (m.faces.getD i []))
        (fun i => faceAabb (m.faces.getD i [])) bvh.nodes [] := by
  obtain ⟨faces⟩ := m
  rcases faces with - | ⟨f0, fs⟩
  · exact absurd rfl hne
  dsimp only at hne ⊢
  have hfabv : ∀ f, Vec3.le (faceAabb ((f0 :: fs).getD f [])).lo
      (faceAabb ((f0 :: fs).getD f [])).hi := fun f => faceAabb_valid _
  have hrootvalid : Vec3.le
      (((f0 :: fs).map faceAabb).foldl (fun acc c => acc.merge c)
        (faceAabb f0)).lo
      (((f0 :: fs).map faceAabb).foldl (fun acc c => acc.merge c)
        (faceAabb f0)).hi := by
    apply foldl_merge_valid
    · exact faceAabb_valid f0
    · intro x hx
      obtain ⟨v, hv, rfl⟩ := List.mem_map.mp hx
      exact faceAabb_valid v
  have hrootcont : ∀ f ∈ List.range (f0 :: fs).length,
      (faceAabb ((f0 :: fs).getD f [])).inside
        (((f0 :: fs).map faceAabb).foldl (fun acc c => acc.merge c)
          (faceAabb f0)) := by
    intro f hf
    rw [List.mem_range] at hf
    rw [List.getD_eq_getElem _ _ hf]
    have hmem : faceAabb (f0 :: fs)[f] ∈ (f0 :: fs).map faceAabb :=
      List.mem_map_of_mem _ (List.getElem_mem hf)
    exact (inside_foldl_merge ((f0 :: fs).map faceAabb) (faceAabb f0)).2 _ hmem
  have hlook0 : ∀ (j : ℕ) (x : Node),
      [Node.leaf (((f0 :: fs).map faceAabb).foldl (fun acc c => acc.merge c)
        (faceAabb f0)) (List.range (f0 :: fs).length)][j]? = some x →
      j = 0 ∧ x = Node.leaf (((f0 :: fs).map faceAabb).foldl
        (fun acc c => acc.merge c) (faceAabb f0))
        (List.range (f0 :: fs).length) := by
    intro j x hj
    cases j with
    | zero =>
      rw [List.getElem?_cons_zero] at hj
      injection hj with hj
      exact ⟨rfl, hj.symm⟩
    | succ k =>
      rw [List.getElem?_cons_succ, List.getElem?_nil] at hj
      exact Option.noConfusion hj
  have hinv0 : BuildInv (fun i => faceCentroid ((f0 :: fs).getD i []))
      (fun i => faceAabb ((f0 :: fs).getD i []))
      [Node.leaf (((f0 :: fs).map faceAabb).foldl (fun acc c => acc.merge c)
        (faceAabb f0)) (List.range (f0 :: fs).length)] [0] := by
    refine ⟨?_, ?_, ?_, ?_, ?_, ?_, ?_, ?_⟩
    · intro j a ps hj
      obtain ⟨-, hx⟩ := hlook0 j _ hj
      injection hx with h1 h2
      rw [h1]
      exact hrootvalid
    · intro j a ps hj
      obtain ⟨-, hx⟩ := hlook0 j _ hj
      injection hx with h1 h2
      subst h1
      subst h2
      exact hrootcont
    · intro j l r a hj
      obtain ⟨-, hx⟩ := hlook0 j _ hj
      exact Node.noConfusion hx
    · intro j l r a hj
      obtain ⟨-, hx⟩ := hlook0 j _ hj
      exact Node.noConfusion hx
    · intro q hq
      have hq0 : q = 0 := by simpa using hq
      subst hq0
      refine ⟨_, _, List.getElem?_cons_zero, ?_⟩
      rw [Ne, List.range_eq_nil]
      simp
    · simp
    · intro j a ps hj
      obtain ⟨rfl, -⟩ := hlook0 j _ hj
      exact Or.inl (by simp)
    · intro j hj
      simp only [List.length_cons, List.length_nil] at hj
      have hj0 : j = 0 := by omega
      subst hj0
      exact Desc.refl 0
  have hm0 : queueMeasure
      [Node.leaf (((f0 :: fs).map faceAabb).foldl (fun acc c => acc.merge c)
        (faceAabb f0)) (List.range (f0 :: fs).length)] [0] ≤
      2 * (f0 :: fs).length := by
    rw [queueMeasure_cons _ 0 [] _ _ List.getElem?_cons_zero, queueMeasure_nil]
    simp only [List.length_range]
    omega
  obtain ⟨nodes2, hloop, hlp, hlen, hfin⟩ := buildLoop_spec
    (fun i => faceCentroid ((f0 :: fs).getD i []))
    (fun i => faceAabb ((f0 :: fs).getD i [])) hfabv
    (2 * (f0 :: fs).length) _ _ hinv0 hm0
  refine ⟨⟨nodes2⟩, ?_, ?_, ?_, hfin⟩
  · show (buildLoop (fun i => faceCentroid ((f0 :: fs).getD i []))
      (fun i => faceAabb ((f0 :: fs).getD i [])) (2 * (f0 :: fs).length)
      [Node.leaf (((f0 :: fs).map faceAabb).foldl (fun acc c => acc.merge c)
        (faceAabb f0)) (List.range (f0 :: fs).length)] [0]).map
        (fun nodes => (⟨nodes⟩ : BoundingVolumeHierarchy)) =
        some (⟨nodes2⟩ : BoundingVolumeHierarchy)
    rw [hloop]
    rfl
  · show leavesPrims nodes2 = _
    rw [hlp, leavesPrims_cons]
    have e1 : leavesPrims ([] : List Node) = 0 := rfl
    have e2 : nodePrims (Node.leaf (((f0 :: fs).map faceAabb).foldl
        (fun acc c => acc.merge c) (faceAabb f0))
        (List.range (f0 :: fs).length)) =
        ((List.range (f0 :: fs).length : List ℕ) : Multiset ℕ) := rfl
    rw [e1, e2, add_zero]
  · show 0 < nodes2.length
    simp only [List.length_cons, List.length_nil] at hlen
    omega

/-! ## Descent and slab monotonicity (fast traversal) -/

theorem Desc_trans {nodes : List Node} :
    ∀ {i j k : ℕ}, Desc nodes i j → Desc nodes j k → Desc nodes i k := by
  intro i j k h1 h2
  induction h2 with
  | refl => exact h1
  | child j2 l r c a hd hlook hor ih => exact Desc.child i j2 l r c a ih hlook hor

theorem Desc_of_leaf {nodes : List Node} {s j : ℕ} {a : Aabb3d} {ps : List ℕ}
    (hd : Desc nodes s j) (hs : nodes[s]? = some (Node.leaf a ps)) : j = s := by
  induction hd with
  | refl => rfl
  | child j2 l r c a2 hd hlook hor ih =>
    rw [ih, hs] at hlook
    injection hlook with h
    exact Node.noConfusion h

theorem Desc_through {nodes : List Node} {s j l r : ℕ} {a : Aabb3d}
    (hd : Desc nodes s j) (hs : nodes[s]? = some (Node.nonLeaf l r a)) :
    j = s ∨ Desc nodes l j ∨ Desc nodes r j := by
  induction hd with
  | refl => exact Or.inl rfl
  | child j2 l2 r2 c a2 hd hlook hor ih =>
    rcases ih with rfl | h | h
    · rw [hs] at hlook
      injection hlook with h
      injection h with h1 h2 h3
      subst h1
      subst h2
      rcases hor with rfl | rfl
      · exact Or.inr (Or.inl (Desc.refl _))
      · exact Or.inr (Or.inr (Desc.refl _))
    · exact Or.inr (Or.inl (Desc.child _ _ _ _ _ _ h hlook hor))
    · exact Or.inr (Or.inr (Desc.child _ _ _ _ _ _ h hlook hor))

/-- Along a descent chain the boxes are nested (shared with the containment
claim). -/
theorem Desc_aabb_inside {nodes : List Node}
    (hchild : ∀ (j l r : ℕ) (a : Aabb3d),
      nodes[j]? = some (Node.nonLeaf l r a) →
      (∃ nl, nodes[l]? = some nl ∧ nl.aabb.inside a) ∧
      (∃ nr, nodes[r]? = some nr ∧ nr.aabb.inside a)) :
    ∀ (i j : ℕ), Desc nodes i j →
      ∀ (nj : Node), nodes[j]? = some nj →
      ∀ (ni : Node), nodes[i]? = some ni → nj.aabb.inside ni.aabb := by
  intro i j hd
  induction hd with
  | refl =>
    intro nj hnj ni hni
    rw [hnj] at hni
    injection hni with hni
    rw [hni]
    exact Aabb3d.inside_refl _
  | child j l r c2 a2 hd hlook hor ih =>
    intro nc hnc ni hni
    obtain ⟨⟨nl, hnl, hnlin⟩, ⟨nr, hnr, hnrin⟩⟩ := hchild j l r a2 hlook
    have hj2 : (Node.nonLeaf l r a2).aabb.inside ni.aabb := ih _ hlook _ hni
    rcases hor with rfl | rfl
    · rw [hnl] at hnc
      injection hnc with hnc
      rw [← hnc]
      exact Aabb3d.inside_trans hnlin hj2
    · rw [hnr] at hnc
      injection hnc with hnc
      rw [← hnc]
      exact Aabb3d.inside_trans hnrin hj2

theorem Vec3.add_x (a b : Vec3) : (a + b).x = a.x + b.x := rfl

theorem Vec3.add_y (a b : Vec3) : (a + b).y = a.y + b.y := rfl

theorem Vec3.add_z (a b : Vec3) : (a + b).z = a.z + b.z := rfl

theorem Vec3.sub_x (a b : Vec3) : (a - b).x = a.x - b.x := rfl

theorem Vec3.sub_y (a b : Vec3) : (a - b).y = a.y - b.y := rfl

theorem Vec3.sub_z (a b : Vec3) : (a - b).z = a.z - b.z := rfl

theorem Vec3.mul_x (a b : Vec3) : (a * b).x = a.x * b.x := rfl

theorem Vec3.mul_y (a b : Vec3) : (a * b).y = a.y * b.y := rfl

theorem Vec3.mul_z (a b : Vec3) : (a * b).z = a.z * b.z := rfl

/-- With a componentwise non-negative scale, the scale/translate of
`Node::intersects_ray` preserves box nesting. -/
theorem moved_inside {a b : Aabb3d} {s T : Vec3}
    (hs : Vec3.le Vec3.zero s) (hin : a.inside b) :
    (Aabb3d.new (a.center * s + T) (a.halfSize * s)).inside
      (Aabb3d.new (b.center * s + T) (b.halfSize * s)) := by
  obtain ⟨⟨h1x, h1y, h1z⟩, ⟨h2x, h2y, h2z⟩⟩ := hin
  obtain ⟨hsx, hsy, hsz⟩ := hs
  dsimp [Vec3.le, Vec3.zero] at hsx hsy hsz
  refine ⟨⟨?_, ?_, ?_⟩, ⟨?_, ?_, ?_⟩⟩ <;>
    simp only [Aabb3d.new, Aabb3d.center, Aabb3d.halfSize, Vec3.smul,
      Vec3.add_x, Vec3.add_y, Vec3.add_z, Vec3.sub_x, Vec3.sub_y, Vec3.sub_z,
      Vec3.mul_x, Vec3.mul_y, Vec3.mul_z] <;>
    nlinarith [mul_nonneg (sub_nonneg.mpr h1x) hsx,
      mul_nonneg (sub_nonneg.mpr h1y) hsy,
      mul_nonneg (sub_nonneg.mpr h1z) hsz,
      mul_nonneg (sub_nonneg.mpr h2x) hsx,
      mul_nonneg (sub_nonneg.mpr h2y) hsy,
      mul_nonneg (sub_nonneg.mpr h2z) hsz]

/-- One axis of the slab test is monotone under slab widening. -/
theorem axisSlab_mono (o d mnb mxb mns mxs rayMax : ℚ)
    (h1 : mnb ≤ mns) (h2 : mxs ≤ mxb) (hr : 0 ≤ rayMax) :
    (axisSlab o d mnb mxb rayMax).1 ≤ (axisSlab o d mns mxs rayMax).1 ∧
    (axisSlab o d mns mxs rayMax).2 ≤ (axisSlab o d mnb mxb rayMax).2 := by
  unfold axisSlab
  by_cases hd : d = 0
  · by_cases hb : mnb ≤ o ∧ o ≤ mxb
    · by_cases hs2 : mns ≤ o ∧ o ≤ mxs
      · rw [if_pos hd, if_pos hd, if_pos hb, if_pos hs2]
        exact ⟨le_rfl, le_rfl⟩
      · rw [if_pos hd, if_pos hd, if_pos hb, if_neg hs2]
        exact ⟨by norm_num, hr⟩
    · by_cases hs2 : mns ≤ o ∧ o ≤ mxs
      · exfalso
        push_neg at hb
        rcases hs2 with ⟨ha, hb2⟩
        have hgo : mnb ≤ o := le_trans h1 ha
        have := hb hgo
        linarith [le_trans hb2 h2]
      · rw [if_pos hd, if_pos hd, if_neg hb, if_neg hs2]
        exact ⟨le_rfl, le_rfl⟩
  · by_cases hp : 0 < d
    · rw [if_neg hd, if_neg hd, if_pos hp, if_pos hp]
      refine ⟨?_, ?_⟩ <;> dsimp only
      · exact (div_le_div_iff_of_pos_right hp).mpr (by linarith)
      · exact (div_le_div_iff_of_pos_right hp).mpr (by linarith)
    · have hn : d < 0 := lt_of_le_of_ne (not_lt.mp hp) hd
      rw [if_neg hd, if_neg hd, if_neg hp, if_neg hp]
      refine ⟨?_, ?_⟩ <;> dsimp only
      · exact (div_le_div_right_of_neg hn).mpr (by linarith)
      · exact (div_le_div_right_of_neg hn).mpr (by linarith)

/-- The slab test is monotone under box nesting: a hit on the inner box gives
a hit on the outer box at most as far. -/
theorem aabbIntersectionAt_mono (ray : RayCast3d) (small big : Aabb3d)
    (hin : small.inside big) (hr : 0 ≤ ray.rmax) (t : ℚ)
    (h : ray.aabbIntersectionAt small = some t) :
    ∃ t2, ray.aabbIntersectionAt big = some t2 ∧ t2 ≤ t := by
  obtain ⟨⟨h1x, h1y, h1z⟩, ⟨h2x, h2y, h2z⟩⟩ := hin
  have hx := axisSlab_mono ray.origin.x ray.dir.x big.lo.x big.hi.x
    small.lo.x small.hi.x ray.rmax h1x h2x hr
  have hy := axisSlab_mono ray.origin.y ray.dir.y big.lo.y big.hi.y
    small.lo.y small.hi.y ray.rmax h1y h2y hr
  have hz := axisSlab_mono ray.origin.z ray.dir.z big.lo.z big.hi.z
    small.lo.z small.hi.z ray.rmax h1z h2z hr
  unfold RayCast3d.aabbIntersectionAt at h ⊢
  dsimp only at h ⊢
  have hminle : max (max (max 0 (axisSlab ray.origin.x ray.dir.x big.lo.x
      big.hi.x ray.rmax).1) (axisSlab ray.origin.y ray.dir.y big.lo.y
      big.hi.y ray.rmax).1) (axisSlab ray.origin.z ray.dir.z big.lo.z
      big.hi.z ray.rmax).1 ≤
      max (max (max 0 (axisSlab ray.origin.x ray.dir.x small.lo.x
      small.hi.x ray.rmax).1) (axisSlab ray.origin.y ray.dir.y small.lo.y
      small.hi.y ray.rmax).1) (axisSlab ray.origin.z ray.dir.z small.lo.z
      small.hi.z ray.rmax).1 :=
    max_le_max (max_le_max (max_le_max le_rfl hx.1) hy.1) hz.1
  have hmaxle : min (min (min ray.rmax (axisSlab ray.origin.x ray.dir.x
      small.lo.x small.hi.x ray.rmax).2) (axisSlab ray.origin.y ray.dir.y
      small.lo.y small.hi.y ray.rmax).2) (axisSlab ray.origin.z ray.dir.z
      small.lo.z small.hi.z ray.rmax).2 ≤
      min (min (min ray.rmax (axisSlab ray.origin.x ray.dir.x big.lo.x
      big.hi.x ray.rmax).2) (axisSlab ray.origin.y ray.dir.y big.lo.y
      big.hi.y ray.rmax).2) (axisSlab ray.origin.z ray.dir.z big.lo.z
      big.hi.z ray.rmax).2 :=
    min_le_min (min_le_min (min_le_min le_rfl hx.2) hy.2) hz.2
  split_ifs at h with hc
  injection h with h
  rw [if_pos (le_trans hminle (le_trans hc hmaxle))]
  exact ⟨_, rfl, by rw [← h]; exact hminle⟩

/-- Box nesting lifts to `Node::intersects_ray` for non-negative scales. -/
theorem node_entry_mono (ray : RayCast3d) (tf : Transform)
    (hscale : Vec3.le Vec3.zero tf.scale) (hr : 0 ≤ ray.rmax)
    (nc np : Node) (hin : nc.aabb.inside np.aabb) (t : ℚ)
    (h : nc.intersectsRay ray tf = some t) :
    ∃ t2, np.intersectsRay ray tf = some t2 ∧ t2 ≤ t := by
  unfold Node.intersectsRay at h ⊢
  dsimp only at h ⊢
  exact aabbIntersectionAt_mono ray _ _ (moved_inside hscale hin) hr t h

/-- A leaf hit forces a hit on every ancestor node, at most as far away. -/
theorem ancestor_entry {nodes : List Node} (ray : RayCast3d) (tf : Transform)
    (hscale : Vec3.le Vec3.zero tf.scale) (hr : 0 ≤ ray.rmax)
    (hchild : ∀ (j l r : ℕ) (a : Aabb3d),
      nodes[j]? = some (Node.nonLeaf l r a) →
      (∃ nl, nodes[l]? = some nl ∧ nl.aabb.inside a) ∧
      (∃ nr, nodes[r]? = some nr ∧ nr.aabb.inside a))
    (s j : ℕ) (hd : Desc nodes s j) (t : ℚ)
    (hle : leafEntry nodes ray tf j t)
    (ns : Node) (hns : nodes[s]? = some ns) :
    ∃ ts, ns.intersectsRay ray tf = some ts ∧ ts ≤ t := by
  obtain ⟨a, ps, hj, hhit⟩ := hle
  have hin := Desc_aabb_inside hchild s j hd _ hj ns hns
  exact node_entry_mono ray tf hscale hr _ _ hin t hhit

/-- Both children always end up on the stack, whatever the push order. -/
theorem pushOrder_mem (left right : ℕ) (lt2 rt2 : Option ℚ) (stack : List ℕ)
    (x : ℕ) :
    x ∈ pushOrder left right lt2 rt2 stack ↔
      x = left ∨ x = right ∨ x ∈ stack := by
  unfold pushOrder
  rcases lt2 with - | lv <;> rcases rt2 with - | rv <;> dsimp only
  · simp only [List.mem_cons]
    tauto
  · simp only [List.mem_cons]
    tauto
  · simp only [List.mem_cons]
    tauto
  · split_ifs <;> simp only [List.mem_cons] <;> tauto

theorem stackMeasure_nil (nodes : List Node) : stackMeasure nodes [] = 0 := rfl

theorem stackMeasure_cons (nodes : List Node) (s : ℕ) (rest : List ℕ) :
    stackMeasure nodes (s :: rest) =
      3 ^ (nodes.length - s) + stackMeasure nodes rest := by
  unfold stackMeasure
  rw [List.map_cons, List.sum_cons]

theorem stackMeasure_pushOrder (nodes : List Node) (left right : ℕ)
    (lt2 rt2 : Option ℚ) (rest : List ℕ) :
    stackMeasure nodes (pushOrder left right lt2 rt2 rest) =
      3 ^ (nodes.length - left) + 3 ^ (nodes.length - right) +
        stackMeasure nodes rest := by
  unfold pushOrder
  rcases lt2 with - | lv <;> rcases rt2 with - | rv <;> dsimp only
  · rw [stackMeasure_cons, stackMeasure_cons]
    omega
  · rw [stackMeasure_cons, stackMeasure_cons]
    omega
  · rw [stackMeasure_cons, stackMeasure_cons]
    omega
  · split_ifs <;> rw [stackMeasure_cons, stackMeasure_cons] <;> omega

set_option maxHeartbeats 2000000 in
/-- Master lemma for `intersects_ray_at_fast`: with non-negative scale and a
structurally sound node array, the loop terminates and returns exactly the
minimum of the incoming best and the entry distances of all leaves reachable
from the stack. -/
theorem fastLoop_spec (nodes : List Node) (ray : RayCast3d) (tf : Transform)
    (hscale : Vec3.le Vec3.zero tf.scale) (hr : 0 ≤ ray.rmax)
    (hchild : ∀ (j l r : ℕ) (a : Aabb3d),
      nodes[j]? = some (Node.nonLeaf l r a) →
      (∃ nl, nodes[l]? = some nl ∧ nl.aabb.inside a) ∧
      (∃ nr, nodes[r]? = some nr ∧ nr.aabb.inside a))
    (hidx : ∀ (j l r : ℕ) (a : Aabb3d),
      nodes[j]? = some (Node.nonLeaf l r a) → j < l ∧ j < r) :
    ∀ (fuel : ℕ) (S : List ℕ) (b : Option ℚ),
      (∀ s ∈ S, ∃ n, nodes[s]? = some n) →
      stackMeasure nodes S < fuel →
      ∃ res, fastLoop nodes ray tf fuel S b = some res ∧
        (∀ tb, b = some tb → ∃ tr, res = some tr ∧ tr ≤ tb) ∧
        (∀ s ∈ S, ∀ (j : ℕ) (t : ℚ), Desc nodes s j →
          leafEntry nodes ray tf j t → ∃ tr, res = some tr ∧ tr ≤ t) ∧
        (∀ tr, res = some tr → b = some tr ∨
          ∃ s ∈ S, ∃ j, Desc nodes s j ∧ leafEntry nodes ray tf j tr) := by
  intro fuel
  induction fuel with
  | zero =>
    intro S b hS hm
    exact absurd hm (Nat.not_lt_zero _)
  | succ fuel ih =>
    intro S b hS hm
    cases S with
    | nil =>
      refine ⟨b, rfl, ?_, ?_, ?_⟩
      · intro tb hb
        exact ⟨tb, hb, le_rfl⟩
      · intro s hs
        exact absurd hs (List.not_mem_nil s)
      · intro tr htr
        exact Or.inl htr
    | cons top rest =>
      obtain ⟨ntop, hntop⟩ := hS top (by simp)
      have htoplt : top < nodes.length := lt_length_of_getElem?_some hntop
      have hmc : stackMeasure nodes (top :: rest) =
          3 ^ (nodes.length - top) + stackMeasure nodes rest :=
        stackMeasure_cons nodes top rest
      have hpow1 : 1 ≤ 3 ^ (nodes.length - top) :=
        Nat.one_le_pow _ _ (by norm_num)
      rcases hent : ntop.intersectsRay ray tf with - | t
      · have hstep : fastLoop nodes ray tf (fuel + 1) (top :: rest) b =
            fastLoop nodes ray tf fuel rest b := by
          simp only [fastLoop, hntop, hent]
        rw [hstep]
        obtain ⟨res, hrun, hP1, hP2, hP3⟩ := ih rest b
          (fun s hs => hS s (by simp [hs])) (by omega)
        refine ⟨res, hrun, hP1, ?_, ?_⟩
        · intro s hs j t hd hle
          rcases List.mem_cons.mp hs with rfl | hs2
          · exfalso
            obtain ⟨ts, hts, -⟩ := ancestor_entry ray tf hscale hr hchild
              s j hd t hle ntop hntop
            rw [hent] at hts
            exact Option.noConfusion hts
          · exact hP2 s hs2 j t hd hle
        · intro tr htr
          rcases hP3 tr htr with hb | ⟨s, hs, j, hd, hle⟩
          · exact Or.inl hb
          · exact Or.inr ⟨s, by simp [hs], j, hd, hle⟩
      · by_cases hpr : pruned b t
        · have hstep : fastLoop nodes ray tf (fuel + 1) (top :: rest) b =
              fastLoop nodes ray tf fuel rest b := by
            simp only [fastLoop, hntop, hent]
            rw [if_pos hpr]
          rw [hstep]
          obtain ⟨res, hrun, hP1, hP2, hP3⟩ := ih rest b
            (fun s hs => hS s (by simp [hs])) (by omega)
          rcases hbv : b with - | v
          · subst hbv
            have hF : False := hpr
            exact hF.elim
          · subst hbv
            have hvt : v < t := hpr
            refine ⟨res, hrun, hP1, ?_, ?_⟩
            · intro s hs j t2 hd hle
              rcases List.mem_cons.mp hs with rfl | hs2
              · obtain ⟨ts, hts, hts2⟩ := ancestor_entry ray tf hscale hr hchild
                  s j hd t2 hle ntop hntop
                rw [hent] at hts
                injection hts with hts
                have ht2 : t ≤ t2 := by
                  rw [hts]
                  exact hts2
                obtain ⟨tr, hres, hrle⟩ := hP1 v rfl
                exact ⟨tr, hres, le_trans hrle
                  (le_trans (le_of_lt hvt) ht2)⟩
              · exact hP2 s hs2 j t2 hd hle
            · intro tr htr
              rcases hP3 tr htr with hb | ⟨s, hs, j, hd, hle⟩
              · exact Or.inl hb
              · exact Or.inr ⟨s, by simp [hs], j, hd, hle⟩
        · cases hnn : ntop with
          | leaf a ps =>
            rw [hnn] at hntop hent
            rcases b with - | v
            · have hstep : fastLoop nodes ray tf (fuel + 1) (top :: rest) none =
                  fastLoop nodes ray tf fuel rest (some t) := by
                simp only [fastLoop, hntop, hent]
                rw [if_neg hpr]
              rw [hstep]
              obtain ⟨res, hrun, hP1, hP2, hP3⟩ := ih rest (some t)
                (fun s hs => hS s (by simp [hs])) (by omega)
              refine ⟨res, hrun, ?_, ?_, ?_⟩
              · intro tb hb
                exact Option.noConfusion hb
              · intro s hs j t2 hd hle
                rcases List.mem_cons.mp hs with rfl | hs2
                · have hj := Desc_of_leaf hd hntop
                  subst hj
                  obtain ⟨a2, ps2, hja, hjhit⟩ := hle
                  rw [hntop] at hja
                  injection hja with hja
                  injection hja with hja1 hja2
                  subst hja1
                  subst hja2
                  rw [hent] at hjhit
                  injection hjhit with hjhit
                  obtain ⟨tr, hres, hrle⟩ := hP1 t rfl
                  exact ⟨tr, hres, le_trans hrle (le_of_eq hjhit)⟩
                · exact hP2 s hs2 j t2 hd hle
              · intro tr htr
                rcases hP3 tr htr with hb | ⟨s, hs, j, hd, hle⟩
                · injection hb with hb
                  right
                  refine ⟨top, by simp, top, Desc.refl top, a, ps, hntop, ?_⟩
                  rw [hent, hb]
                · exact Or.inr ⟨s, by simp [hs], j, hd, hle⟩
            · have hvt : ¬ v < t := hpr
              have hmin : min v t = t := min_eq_right (not_lt.mp hvt)
              have hstep : fastLoop nodes ray tf (fuel + 1) (top :: rest)
                  (some v) = fastLoop nodes ray tf fuel rest (some (min v t)) := by
                simp only [fastLoop, hntop, hent]
                rw [if_neg hpr]
              rw [hstep]
              obtain ⟨res, hrun, hP1, hP2, hP3⟩ := ih rest (some (min v t))
                (fun s hs => hS s (by simp [hs])) (by omega)
              refine ⟨res, hrun, ?_, ?_, ?_⟩
              · intro tb hb
                injection hb with hb
                obtain ⟨tr, hres, hrle⟩ := hP1 (min v t) rfl
                refine ⟨tr, hres, le_trans hrle ?_⟩
                rw [← hb]
                exact min_le_left _ _
              · intro s hs j t2 hd hle
                rcases List.mem_cons.mp hs with rfl | hs2
                · have hj := Desc_of_leaf hd hntop
                  subst hj
                  obtain ⟨a2, ps2, hja, hjhit⟩ := hle
                  rw [hntop] at hja
                  injection hja with hja
                  injection hja with hja1 hja2
                  subst hja1
                  subst hja2
                  rw [hent] at hjhit
                  injection hjhit with hjhit
                  obtain ⟨tr, hres, hrle⟩ := hP1 (min v t) rfl
                  refine ⟨tr, hres, le_trans hrle ?_⟩
                  exact le_trans (min_le_right v t) (le_of_eq hjhit)
                · exact hP2 s hs2 j t2 hd hle
              · intro tr htr
                rcases hP3 tr htr with hb | ⟨s, hs, j, hd, hle⟩
                · injection hb with hb
                  rw [hmin] at hb
                  right
                  refine ⟨top, by simp, top, Desc.refl top, a, ps, hntop, ?_⟩
                  rw [hent, hb]
                · exact Or.inr ⟨s, by simp [hs], j, hd, hle⟩
          | nonLeaf l r a =>
            rw [hnn] at hntop hent
            obtain ⟨⟨nl, hnl, hnlin⟩, ⟨nr2, hnr2, hnr2in⟩⟩ :=
              hchild top l r a hntop
            obtain ⟨hlt1, hlt2⟩ := hidx top l r a hntop
            have hllt : l < nodes.length := lt_length_of_getElem?_some hnl
            have hrlt : r < nodes.length := lt_length_of_getElem?_some hnr2
            have hstep : fastLoop nodes ray tf (fuel + 1) (top :: rest) b =
                fastLoop nodes ray tf fuel
                  (pushOrder l r (nl.intersectsRay ray tf)
                    (nr2.intersectsRay ray tf) rest) b := by
              simp only [fastLoop, hntop, hent, hnl, hnr2]
              rw [if_neg hpr]
            rw [hstep]
            have hmp := stackMeasure_pushOrder nodes l r
              (nl.intersectsRay ray tf) (nr2.intersectsRay ray tf) rest
            have hle1 : 3 ^ (nodes.length - l) ≤ 3 ^ (nodes.length - top - 1) :=
              Nat.pow_le_pow_right (by norm_num) (by omega)
            have hle2 : 3 ^ (nodes.length - r) ≤ 3 ^ (nodes.length - top - 1) :=
              Nat.pow_le_pow_right (by norm_num) (by omega)
            have hpowX : 1 ≤ 3 ^ (nodes.length - top - 1) :=
              Nat.one_le_pow _ _ (by norm_num)
            have hsplit3 : 3 ^ (nodes.length - top) =
                3 * 3 ^ (nodes.length - top - 1) := by
              have he : nodes.length - top = (nodes.length - (top + 1)) + 1 := by
                omega
              have he2 : nodes.length - top - 1 = nodes.length - (top + 1) := by
                omega
              rw [he2, he, pow_succ]
              omega
            obtain ⟨res, hrun, hP1, hP2, hP3⟩ := ih
              (pushOrder l r (nl.intersectsRay ray tf)
                (nr2.intersectsRay ray tf) rest) b
              (fun s hs => by
                rcases (pushOrder_mem l r (nl.intersectsRay ray tf)
                    (nr2.intersectsRay ray tf) rest s).mp hs with rfl | rfl | hs2
                · exact ⟨nl, hnl⟩
                · exact ⟨nr2, hnr2⟩
                · exact hS s (by simp [hs2]))
              (by omega)
            refine ⟨res, hrun, hP1, ?_, ?_⟩
            · intro s hs j t2 hd hle
              rcases List.mem_cons.mp hs with rfl | hs2
              · rcases Desc_through hd hntop with rfl | hdl | hdr
                · exfalso
                  obtain ⟨a2, ps2, hja, -⟩ := hle
                  rw [hntop] at hja
                  injection hja with hja
                  exact Node.noConfusion hja
                · exact hP2 l ((pushOrder_mem _ _ _ _ _ l).mpr (Or.inl rfl))
                    j t2 hdl hle
                · exact hP2 r ((pushOrder_mem _ _ _ _ _ r).mpr
                    (Or.inr (Or.inl rfl))) j t2 hdr hle
              · exact hP2 s ((pushOrder_mem _ _ _ _ _ s).mpr
                  (Or.inr (Or.inr hs2))) j t2 hd hle
            · intro tr htr
              rcases hP3 tr htr with hb | ⟨s, hs, j, hd, hle⟩
              · exact Or.inl hb
              · rcases (pushOrder_mem _ _ _ _ _ s).mp hs with hsl | hsr | hs2
                · right
                  refine ⟨top, by simp, j, ?_, hle⟩
                  exact Desc_trans (Desc.child top top l r s a (Desc.refl top)
                    hntop (Or.inl hsl)) hd
                · right
                  refine ⟨top, by simp, j, ?_, hle⟩
                  exact Desc_trans (Desc.child top top l r s a (Desc.refl top)
                    hntop (Or.inr hsr)) hd
                · exact Or.inr ⟨s, by simp [hs2], j, hd, hle⟩


/-! ## C9: scenario A on the convex-polygon intersection -/

unseal Rat.mul Rat.add Rat.sub Rat.inv in
/-- **C9.** For the unit quad under the identity transform, the
convex-polygon intersection returns `some 1` for the ray from
`(0.5, 0.5, 1)` towards `-z`, and `none` for the ray from `(0.5, -0.5, 1)`
with the same direction. -/
theorem C9_unit_quad_scenario :
    rayIntersectsConvexPlaneAt rayHitQuad Transform.IDENTITY quadVertices = some 1 ∧
    rayIntersectsConvexPlaneAt rayMissQuad Transform.IDENTITY quadVertices = none := by
  exact ⟨by decide, by decide⟩

/-! ## C10: traversal of an unbuilt (empty) BVH panics -/

/-- **C10.** `BoundingVolumeHierarchy::new` and the `Default` instance both
produce an empty node array, and on an empty node array both traversal entry
points index node 0 out of bounds — a panic, modelled as the outer `none` —
for every ray and transform, rather than returning a `None` miss
(modelled as `some none`). -/
theorem C10_empty_bvh_traversal_panics :
    BoundingVolumeHierarchy.new = bvhDefault ∧
    bvhDefault.nodes = [] ∧
    ∀ (ray : RayCast3d) (transform : Transform) (mesh : EditableMesh),
      intersectsRayAtFast bvhDefault ray transform = none ∧
      intersectsRayAt bvhDefault ray transform mesh = none := by
  exact ⟨rfl, rfl, fun ray transform mesh => ⟨rfl, rfl⟩⟩

/-! ## C8: torus quartic scenarios -/

unseal Rat.mul Rat.add Rat.sub Rat.inv in
theorem torusB_coeffs : torusB.quarticCoeffs rayTorus = (1, 0, -5/2, 0, 9/16) := by
  decide

unseal Rat.mul Rat.add Rat.sub Rat.inv in
theorem torusC_coeffs :
    torusC.quarticCoeffs rayTorus = (1, -40, 1195/2, -3950, 156009/16) := by
  decide

theorem torusB_hit : Torus.RayResult torusB rayTorus (some (1/2)) := by
  refine ⟨⟨⟨?_, by norm_num⟩, ?_⟩, ?_⟩
  · show (1/2 : ℝ) ∈ quarticRoots (torusB.quarticCoeffs rayTorus)
    rw [torusB_coeffs]
    simp only [quarticRoots, Set.mem_setOf_eq]
    push_cast
    norm_num
  · rintro x ⟨hroot, hx0⟩
    rw [torusB_coeffs] at hroot
    simp only [quarticRoots, Set.mem_setOf_eq] at hroot
    push_cast at hroot
    by_contra hcon
    push_neg at hcon
    have hroot2 : x ^ 4 - 5/2 * x ^ 2 + 9/16 = 0 := by linear_combination hroot
    have f1 : (0:ℝ) < 1/2 - x := by linarith
    have f2 : (0:ℝ) < x + 1/2 := by linarith
    have f3 : (0:ℝ) < 3/2 - x := by linarith
    have f4 : (0:ℝ) < x + 3/2 := by linarith
    have hprod : 0 < (1/2 - x) * (x + 1/2) * ((3/2 - x) * (x + 3/2)) :=
      mul_pos (mul_pos f1 f2) (mul_pos f3 f4)
    have hfac : (1/2 - x) * (x + 1/2) * ((3/2 - x) * (x + 3/2))
        = x ^ 4 - 5/2 * x ^ 2 + 9/16 := by ring
    rw [hfac, hroot2] at hprod
    exact lt_irrefl 0 hprod
  · show (1/2 : ℝ) ≤ ((rayTorus.rmax : ℚ) : ℝ)
    norm_num [rayTorus]

theorem torusC_hit : Torus.RayResult torusC rayTorus (some (17/2)) := by
  refine ⟨⟨⟨?_, by norm_num⟩, ?_⟩, ?_⟩
  · show (17/2 : ℝ) ∈ quarticRoots (torusC.quarticCoeffs rayTorus)
    rw [torusC_coeffs]
    simp only [quarticRoots, Set.mem_setOf_eq]
    push_cast
    norm_num
  · rintro x ⟨hroot, hx0⟩
    rw [torusC_coeffs] at hroot
    simp only [quarticRoots, Set.mem_setOf_eq] at hroot
    push_cast at hroot
    by_contra hcon
    push_neg at hcon
    have hroot2 : x ^ 4 - 40 * x ^ 3 + 1195/2 * x ^ 2 - 3950 * x + 156009/16 = 0 := by
      linear_combination hroot
    have f1 : (0:ℝ) < 17/2 - x := by linarith
    have f2 : (0:ℝ) < 19/2 - x := by linarith
    have f3 : (0:ℝ) < 21/2 - x := by linarith
    have f4 : (0:ℝ) < 23/2 - x := by linarith
    have hprod : 0 < (17/2 - x) * (19/2 - x) * ((21/2 - x) * (23/2 - x)) :=
      mul_pos (mul_pos f1 f2) (mul_pos f3 f4)
    have hfac : (17/2 - x) * (19/2 - x) * ((21/2 - x) * (23/2 - x))
        = x ^ 4 - 40 * x ^ 3 + 1195/2 * x ^ 2 - 3950 * x + 156009/16 := by ring
    rw [hfac, hroot2] at hprod
    exact lt_irrefl 0 hprod
  · show (17/2 : ℝ) ≤ ((rayTorus.rmax : ℚ) : ℝ)
    norm_num [rayTorus]

/-- **C8.** The torus-ray intersection (with the external quartic solver
modelled as an exact real-root finder, see `Torus.RayResult`) returns the
smallest non-negative real root of the quartic built from the source's
coefficients when it is within range, and `none` otherwise; concretely, the
scenario-B torus (ring 1, thickness 0.5, at the origin, identity orientation)
is hit at `t = 0.5` by the ray from the origin towards `-z`, and the same
torus translated to `(0, 0, -10)` is hit at `t = 8.5`. -/
theorem C8_torus_quartic_scenarios :
    Torus.RayResult torusB rayTorus (some (1/2)) ∧
    Torus.RayResult torusC rayTorus (some (17/2)) :=
  ⟨torusB_hit, torusC_hit⟩

/-! ## C3: precise-mode acceptance conditions -/


theorem triangle_accept_iff (tri : Triangle3d) (ray : RayCast3d) (t : ℚ) :
    tri.intersectsRayAt ray = some t ↔ mtAccept tri ray ∧ t = mtDistance tri ray := by
  have heps : (0:ℚ) < eps := by norm_num [eps]
  unfold Triangle3d.intersectsRayAt mtAccept mtDistance
  generalize mtData tri ray = d
  obtain ⟨a, u, v, tv⟩ := d
  dsimp only
  constructor
  · intro h
    split_ifs at h with h1 h2 h3 h4
    rw [Option.some_inj] at h
    subst h
    push_neg at h1 h2 h3
    refine ⟨⟨?_, h2.1, h2.2, h3.1, by linarith [h3.1, h3.2], h3.2, h4⟩, rfl⟩
    rcases lt_or_le a 0 with hneg | hpos
    · refine le_abs.mpr (Or.inr ?_)
      by_contra hc
      push_neg at hc
      exact absurd (h1 (by linarith)) (by linarith)
    · exact le_abs.mpr (Or.inl (h1 (by linarith)))
  · rintro ⟨⟨habs, hu0, hu1, hv0, -, huv, ht⟩, rfl⟩
    split_ifs with h1 h2 h3
    · exfalso
      rcases le_abs.mp habs with hc | hc
      · exact absurd h1.2 (by linarith)
      · exact absurd h1.1 (by linarith)
    · exact absurd h2 (by push_neg; exact ⟨hu0, hu1⟩)
    · exact absurd h3 (by push_neg; exact ⟨hv0, huv⟩)
    · rfl

/-- Characterization of the fan loop of `ray_intersects_convex_plane_at`: it
returns `some t` exactly when the first fan triangle with an MT hit exists,
hits at `t`, and `t` is strictly below the ray's maximum. -/
theorem fanLoop_eq_some_iff (ray : RayCast3d) (tris : List Triangle3d) (t : ℚ) :
    fanLoop ray tris = some t ↔
      ∃ pre tri suf, tris = pre ++ tri :: suf ∧
        (∀ tr ∈ pre, tr.intersectsRayAt ray = none) ∧
        tri.intersectsRayAt ray = some t ∧ t < ray.rmax := by
  induction tris with
  | nil =>
    simp only [fanLoop]
    constructor
    · intro h; cases h
    · rintro ⟨pre, tri, suf, habs, -⟩
      exact absurd habs (by simp)
  | cons tri0 rest ih =>
    simp only [fanLoop]
    cases h0 : tri0.intersectsRayAt ray with
    | some t0 =>
      by_cases hlt : t0 < ray.rmax
      · simp only [if_pos hlt]
        constructor
        · intro h
          injection h with h
          exact ⟨[], tri0, rest, by simp, by simp, by rw [h0, h], by rw [← h]; exact hlt⟩
        · rintro ⟨pre, tri, suf, heq, hpre, htri, hmax⟩
          cases pre with
          | nil =>
            simp only [List.nil_append, List.cons.injEq] at heq
            rw [← heq.1] at htri
            rw [htri] at h0
            injection h0 with h0
            rw [h0]
          | cons p ps =>
            simp only [List.cons_append, List.cons.injEq] at heq
            have hnone := hpre p (by simp)
            rw [heq.1] at h0
            rw [hnone] at h0
            cases h0
      · simp only [if_neg hlt]
        constructor
        · intro h; cases h
        · rintro ⟨pre, tri, suf, heq, hpre, htri, hmax⟩
          cases pre with
          | nil =>
            simp only [List.nil_append, List.cons.injEq] at heq
            rw [← heq.1] at htri
            rw [htri] at h0
            injection h0 with h0
            exact absurd (h0 ▸ hmax) hlt
          | cons p ps =>
            simp only [List.cons_append, List.cons.injEq] at heq
            have hnone := hpre p (by simp)
            rw [heq.1] at h0
            rw [hnone] at h0
            cases h0
    | none =>
      rw [ih]
      constructor
      · rintro ⟨pre, tri, suf, heq, hpre, htri, hmax⟩
        refine ⟨tri0 :: pre, tri, suf, by rw [heq]; rfl, ?_, htri, hmax⟩
        intro tr htr
        rcases List.mem_cons.mp htr with rfl | htr2
        · exact h0
        · exact hpre tr htr2
      · rintro ⟨pre, tri, suf, heq, hpre, htri, hmax⟩
        cases pre with
        | nil =>
          simp only [List.nil_append, List.cons.injEq] at heq
          rw [← heq.1] at htri
          rw [htri] at h0
          cases h0
        | cons p ps =>
          simp only [List.cons_append, List.cons.injEq] at heq
          exact ⟨ps, tri, suf, heq.2, fun tr htr => hpre tr (by simp [htr]), htri, hmax⟩

theorem selectClosest_append_one (hits : List (ℕ × ℚ)) (fh : ℕ) (t : ℚ) :
    selectClosest (hits ++ [(fh, t)]) = updateClosest (selectClosest hits) fh (some t) := by
  unfold selectClosest
  rw [List.foldl_append]
  cases (List.foldl _ none hits : Option (ℕ × ℚ)) with
  | none => rfl
  | some q => rfl

theorem leafScan_selectClosest (mesh : EditableMesh) (ray : RayCast3d)
    (transform : Transform) :
    ∀ (prims : List ℕ) (closest : Option (ℕ × ℚ)) (hits : List (ℕ × ℚ))
      (res : Option (ℕ × ℚ) × List (ℕ × ℚ)),
      closest = selectClosest hits →
      leafScan mesh ray transform prims closest hits = some res →
      res.1 = selectClosest res.2 := by
  intro prims
  induction prims with
  | nil =>
    intro closest hits res hinv h
    simp only [leafScan, Option.some_inj] at h
    rw [← h]
    exact hinv
  | cons fh rest ih =>
    intro closest hits res hinv h
    cases hv : mesh.faces[fh]? with
    | none =>
      simp only [leafScan, hv] at h
      exact Option.noConfusion h
    | some verts =>
      cases hr : rayIntersectsConvexPlaneAt ray transform verts with
      | some t =>
        simp only [leafScan, hv, hr] at h
        exact ih _ _ res (by rw [hinv, selectClosest_append_one]) h
      | none =>
        simp only [leafScan, hv, hr] at h
        exact ih _ _ res hinv h

set_option maxHeartbeats 2000000 in
theorem preciseLoop_selectClosest (nodes : List Node) (mesh : EditableMesh)
    (ray : RayCast3d) (transform : Transform) :
    ∀ (fuel : ℕ) (stack : List ℕ) (closest : Option (ℕ × ℚ))
      (hits : List (ℕ × ℚ)) (res : Option (ℕ × ℚ) × List (ℕ × ℚ)),
      closest = selectClosest hits →
      preciseLoop nodes mesh ray transform fuel stack closest hits = some res →
      res.1 = selectClosest res.2 := by
  intro fuel
  induction fuel with
  | zero =>
    intro stack closest hits res hinv h
    cases stack with
    | nil =>
      simp only [preciseLoop, Option.some_inj] at h
      rw [← h]
      exact hinv
    | cons a b =>
      simp only [preciseLoop] at h
      exact Option.noConfusion h
  | succ fuel ih =>
    intro stack closest hits res hinv h
    cases stack with
    | nil =>
      simp only [preciseLoop, Option.some_inj] at h
      rw [← h]
      exact hinv
    | cons top stack =>
      cases hn : nodes[top]? with
      | none =>
        simp only [preciseLoop, hn] at h
        exact Option.noConfusion h
      | some node =>
        cases hi : node.intersectsRay ray transform with
        | none =>
          simp only [preciseLoop, hn, hi] at h
          exact ih _ _ _ res hinv h
        | some t =>
          by_cases hpr : prunedPair closest t
          · simp only [preciseLoop, hn, hi, if_pos hpr] at h
            exact ih _ _ _ res hinv h
          · cases node with
            | leaf aabb prims =>
              cases hscan : leafScan mesh ray transform prims closest hits with
              | none =>
                simp only [preciseLoop, hn, hi, if_neg hpr, hscan] at h
                exact Option.noConfusion h
              | some pair =>
                simp only [preciseLoop, hn, hi, if_neg hpr, hscan] at h
                exact ih _ _ _ res
                  (leafScan_selectClosest mesh ray transform prims closest hits
                    pair hinv hscan) h
            | nonLeaf left right aabb =>
              cases hl : nodes[left]? with
              | none =>
                simp only [preciseLoop, hn, hi, if_neg hpr, hl] at h
                exact Option.noConfusion h
              | some leftNode =>
                cases hrr : nodes[right]? with
                | none =>
                  simp only [preciseLoop, hn, hi, if_neg hpr, hl, hrr] at h
                  exact Option.noConfusion h
                | some rightNode =>
                  simp only [preciseLoop, hn, hi, if_neg hpr, hl, hrr] at h
                  exact ih _ _ _ res hinv h


unseal Rat.mul Rat.add Rat.sub Rat.inv in
/-- **C3 counterexample.** For this triangle and ray the MT test accepts at
`t = 1` which equals the ray's maximum range (`t ≤ max` holds, as the claim
requires for acceptance), yet the convex-plane query returns `none`: the
source's range check is strict (`t < ray.max`), so the claim's
"less than or equal to the ray's maximum range" is false. -/
theorem C3_counterexample :
    Triangle3d.intersectsRayAt triSelfTest rayAtMax = some 1 ∧
    mtAccept triSelfTest rayAtMax ∧ mtDistance triSelfTest rayAtMax = 1 ∧
    (1 : ℚ) ≤ rayAtMax.rmax ∧
    rayIntersectsConvexPlaneAt rayAtMax Transform.IDENTITY
      [⟨0, 0, 0⟩, ⟨1, 0, 0⟩, ⟨0, 1, 0⟩] = none := by
  refine ⟨by decide, ?_, by decide, by decide, by decide⟩
  unfold mtAccept
  refine ⟨by decide, by decide, by decide, by decide, by decide, by decide, by decide⟩

/-- **C3 (amended).** In precise mode a fan triangle is accepted iff the ray
is not near-parallel to its plane (`|det| ≥ 1e-5`), the barycentric
coordinates lie in `[0,1]` with sum at most 1, and the parametric distance is
`> 1e-5` and *strictly less than* the ray's maximum range (the source checks
`t < ray.max`, not `≤`); the face query reports the first fan triangle with
an MT hit; and among the accepted hits across all visited leaves the
minimum-distance one (ties to the earliest) is returned with the owning
face's handle. -/
theorem C3_precise_acceptance :
    (∀ (tri : Triangle3d) (ray : RayCast3d) (t : ℚ),
      tri.intersectsRayAt ray = some t ↔ mtAccept tri ray ∧ t = mtDistance tri ray) ∧
    (∀ (ray : RayCast3d) (transform : Transform) (vertices : List Vec3) (t : ℚ),
      rayIntersectsConvexPlaneAt ray transform vertices = some t ↔
        ∃ pre tri suf, fanTriangles transform vertices = pre ++ tri :: suf ∧
          (∀ tr ∈ pre, tr.intersectsRayAt ray = none) ∧
          tri.intersectsRayAt ray = some t ∧ t < ray.rmax) ∧
    (∀ (bvh : BoundingVolumeHierarchy) (mesh : EditableMesh) (ray : RayCast3d)
      (transform : Transform) (r : Option (ℕ × ℚ)),
      intersectsRayAt bvh ray transform mesh = some r →
      ∃ hits, preciseLoop bvh.nodes mesh (transformedRay ray transform) transform
          (3 ^ (bvh.nodes.length + 1)) [0] none [] = some (r, hits) ∧
        r = selectClosest hits) := by
  refine ⟨triangle_accept_iff, ?_, ?_⟩
  · intro ray transform vertices t
    exact fanLoop_eq_some_iff ray (fanTriangles transform vertices) t
  · intro bvh mesh ray transform r h
    unfold intersectsRayAt at h
    cases hrun : preciseLoop bvh.nodes mesh (transformedRay ray transform) transform
        (3 ^ (bvh.nodes.length + 1)) [0] none [] with
    | none => rw [hrun] at h; cases h
    | some pair =>
      rw [hrun] at h
      injection h with h
      subst h
      refine ⟨pair.2, ?_, ?_⟩
      · simpa using hrun
      · exact preciseLoop_selectClosest bvh.nodes mesh (transformedRay ray transform)
          transform (3 ^ (bvh.nodes.length + 1)) [0] none [] pair (by rfl) hrun


/-! ## Builder claims -/

/-- A successful split rewrites the node at `idx` and appends two leaves
whose lists partition the parent list (shared consequence of
`splitNode_spec`). -/
theorem splitNode_ok_parts (cent : ℕ → Vec3) (fab : ℕ → Aabb3d)
    (nodes : List Node) (idx : ℕ) (rootAabb : Aabb3d) (prims : List ℕ)
    (newNodes : List Node) (l r : ℕ)
    (hnode : nodes[idx]? = some (Node.leaf rootAabb prims))
    (hvalid : Vec3.le rootAabb.lo rootAabb.hi)
    (hok : splitNode cent fab nodes idx = SplitResult.ok newNodes l r) :
    ∃ la ra LL RR, newNodes[l]? = some (Node.leaf la LL) ∧
      newNodes[r]? = some (Node.leaf ra RR) ∧
      (LL : Multiset ℕ) + (RR : Multiset ℕ) = (prims : Multiset ℕ) ∧
      leavesPrims newNodes = leavesPrims nodes := by
  rcases splitNode_spec cent fab nodes idx rootAabb prims hnode hvalid with
    ⟨hsn, -⟩ | ⟨c, -, hsn, -, -, -, -, -⟩
  · rw [hok] at hsn
    exact SplitResult.noConfusion hsn
  · rw [hok] at hsn
    injection hsn with h1 h2 h3
    subst h1
    subst h2
    subst h3
    have hmult : ((prims.filter fun f =>
        decide ((cent f).get c.axis < c.position) : List ℕ) : Multiset ℕ) +
        ((prims.filter fun f =>
          !decide ((cent f).get c.axis < c.position) : List ℕ) : Multiset ℕ) =
        (prims : Multiset ℕ) := by
      have hp := List.filter_append_perm
        (fun f => decide ((cent f).get c.axis < c.position)) prims
      have hcoe := Multiset.coe_eq_coe.mpr hp
      rw [← hcoe]
      simp
    refine ⟨c.leftAabb, c.rightAabb, _, _,
      getElem?_set_append_fst nodes idx _ _ _,
      getElem?_set_append_snd nodes idx _ _ _, hmult, ?_⟩
    rw [leavesPrims_append, leavesPrims_cons, leavesPrims_cons]
    have e2 : leavesPrims ([] : List Node) = 0 := rfl
    rw [e2, add_zero]
    have h2s := leavesPrims_set_swap nodes idx (Node.leaf rootAabb prims)
      (Node.nonLeaf nodes.length (nodes.length + 1) rootAabb) hnode
    have e5 : nodePrims (Node.leaf rootAabb prims) = (prims : Multiset ℕ) := rfl
    have e6 : nodePrims (Node.nonLeaf nodes.length (nodes.length + 1) rootAabb) =
      (0 : Multiset ℕ) := rfl
    rw [e5, e6, add_zero] at h2s
    have eL : nodePrims (Node.leaf c.leftAabb (prims.filter fun f =>
        decide ((cent f).get c.axis < c.position))) =
        ((prims.filter fun f =>
          decide ((cent f).get c.axis < c.position) : List ℕ) : Multiset ℕ) := rfl
    have eR : nodePrims (Node.leaf c.rightAabb (prims.filter fun f =>
        !decide ((cent f).get c.axis < c.position))) =
        ((prims.filter fun f =>
          !decide ((cent f).get c.axis < c.position) : List ℕ) : Multiset ℕ) := rfl
    rw [eL, eR, hmult]
    exact h2s

/-- **C1.** The leaves of every built BVH hold exactly the face handles of
the source mesh, each exactly once; every successful split partitions the
parent leaf's list into the two fresh children with no face dropped or
duplicated, preserving the overall leaf multiset. -/
theorem C1_partition_completeness :
    (∀ (m : EditableMesh) (bvh : BoundingVolumeHierarchy),
      buildBVH m = some bvh →
      leavesPrims bvh.nodes = ↑(List.range m.faces.length)) ∧
    (∀ (cent : ℕ → Vec3) (fab : ℕ → Aabb3d) (nodes newNodes : List Node)
      (idx l r : ℕ) (rootAabb : Aabb3d) (prims : List ℕ),
      nodes[idx]? = some (Node.leaf rootAabb prims) →
      Vec3.le rootAabb.lo rootAabb.hi →
      splitNode cent fab nodes idx = SplitResult.ok newNodes l r →
      ∃ la ra LL RR, newNodes[l]? = some (Node.leaf la LL) ∧
        newNodes[r]? = some (Node.leaf ra RR) ∧
        (LL : Multiset ℕ) + (RR : Multiset ℕ) = (prims : Multiset ℕ) ∧
        leavesPrims newNodes = leavesPrims nodes) := by
  constructor
  · intro m bvh h
    have hne : m.faces ≠ [] := by
      intro hc
      unfold buildBVH at h
      rw [hc] at h
      exact Option.noConfusion h
    obtain ⟨bvh2, h2, hlp, -, -⟩ := buildBVH_spec m hne
    rw [h] at h2
    injection h2 with h2
    subst h2
    exact hlp
  · intro cent fab nodes newNodes idx l r rootAabb prims hnode hvalid hok
    exact splitNode_ok_parts cent fab nodes idx rootAabb prims newNodes l r
      hnode hvalid hok

set_option maxRecDepth 100000 in
unseal Rat.mul Rat.add Rat.sub Rat.inv in
/-- Witness for **C1** on a concrete mesh. -/
theorem C1_partition_completeness_witness :
    buildBVH mesh1 = some bvh1 ∧
    leavesPrims bvh1.nodes = ↑(List.range mesh1.faces.length) :=
  ⟨by decide, C1_partition_completeness.1 mesh1 bvh1 (by decide)⟩

set_option maxRecDepth 100000 in
unseal Rat.mul Rat.add Rat.sub Rat.inv in
/-- **C4 counterexample.** `mesh9` has 9 faces, and `9 ≤ 16`: under the
claimed threshold of 16 its dequeued root leaf would be left terminal, yet
the build splits it (the root of the built tree is a non-leaf), because the
source's `maximum_primitive_per_leaf` is `8u32`, not 16. -/
theorem C4_counterexample :
    mesh9.faces.length = 9 ∧ (9 : ℕ) ≤ 16 ∧
    (buildBVH mesh9).map (fun b => b.nodes.map Node.isLeaf) =
      some [false, true, true] := by
  refine ⟨by decide, by decide, by decide⟩

/-- **C4 (amended).** The maximum-primitives-per-leaf threshold is 8: a
dequeued leaf is left terminal exactly when its count is at most 8, and
every leaf of a built tree holds at most 8 faces unless no axis/boundary
produced a split candidate for it. -/
theorem C4_leaf_threshold :
    maximumPrimitivePerLeaf = 8 ∧
    (∀ (cent : ℕ → Vec3) (fab : ℕ → Aabb3d) (fuel : ℕ) (nodes : List Node)
      (top : ℕ) (queue : List ℕ) (a : Aabb3d) (ps : List ℕ),
      nodes[top]? = some (Node.leaf a ps) →
      ps.length ≤ maximumPrimitivePerLeaf →
      buildLoop cent fab (fuel + 1) nodes (top :: queue) =
        buildLoop cent fab fuel nodes queue) ∧
    (∀ (m : EditableMesh) (bvh : BoundingVolumeHierarchy),
      buildBVH m = some bvh →
      ∀ (j : ℕ) (a : Aabb3d) (ps : List ℕ),
        bvh.nodes[j]? = some (Node.leaf a ps) →
        ps.length ≤ maximumPrimitivePerLeaf ∨
          pickBest (splitCandidates (fun i => faceCentroid (m.faces.getD i []))
            (fun i => faceAabb (m.faces.getD i [])) a ps) = none) := by
  refine ⟨rfl, ?_, ?_⟩
  · intro cent fab fuel nodes top queue a ps hlook hle
    simp only [buildLoop, hlook]
    rw [if_pos hle]
  · intro m bvh h j a ps hj
    have hne : m.faces ≠ [] := by
      intro hc
      unfold buildBVH at h
      rw [hc] at h
      exact Option.noConfusion h
    obtain ⟨bvh2, h2, -, -, hfin⟩ := buildBVH_spec m hne
    rw [h] at h2
    injection h2 with h2
    subst h2
    rcases hfin.doneOk j a ps hj with hmem | hother
    · exact absurd hmem (List.not_mem_nil j)
    · exact hother

set_option maxRecDepth 100000 in
unseal Rat.mul Rat.add Rat.sub Rat.inv in
/-- Witness for **C4 (amended)** on a concrete mesh. -/
theorem C4_leaf_threshold_witness :
    buildBVH mesh1 = some bvh1 ∧
    (([0] : List ℕ).length ≤ maximumPrimitivePerLeaf ∨
      pickBest (splitCandidates (fun i => faceCentroid (mesh1.faces.getD i []))
        (fun i => faceAabb (mesh1.faces.getD i []))
        ⟨⟨0, 0, 0⟩, ⟨1, 1, 0⟩⟩ [0]) = none) :=
  ⟨by decide, C4_leaf_threshold.2.2 mesh1 bvh1 (by decide) 0
    ⟨⟨0, 0, 0⟩, ⟨1, 1, 0⟩⟩ [0] (by decide)⟩

/-- **C5.** Building from a non-empty mesh always terminates with a tree and
never panics: `split_node` never crashes on a leaf with a valid box (its
final asserts hold), the asserts at skipped boundaries hold (an aggregate
with no AABB has count zero), and an unsplittable oversized leaf is simply
kept. -/
theorem C5_no_panic :
    (∀ m : EditableMesh, m.faces ≠ [] → ∃ bvh, buildBVH m = some bvh) ∧
    (∀ (cent : ℕ → Vec3) (fab : ℕ → Aabb3d) (nodes : List Node) (idx : ℕ)
      (a : Aabb3d) (ps : List ℕ),
      nodes[idx]? = some (Node.leaf a ps) → Vec3.le a.lo a.hi →
      splitNode cent fab nodes idx ≠ SplitResult.crash) ∧
    (∀ (cent : ℕ → Vec3) (fab : ℕ → Aabb3d) (rootAabb : Aabb3d) (axis : ℕ)
      (prims : List ℕ) (i : ℕ),
      ((((mkBuckets cent fab rootAabb axis prims).take i).foldl combineBuckets
        ⟨0, none⟩).aabb = none →
        (((mkBuckets cent fab rootAabb axis prims).take i).foldl combineBuckets
          ⟨0, none⟩).primitiveCount = 0) ∧
      ((((mkBuckets cent fab rootAabb axis prims).drop i).foldl combineBuckets
        ⟨0, none⟩).aabb = none →
        (((mkBuckets cent fab rootAabb axis prims).drop i).foldl combineBuckets
          ⟨0, none⟩).primitiveCount = 0)) := by
  refine ⟨?_, ?_, ?_⟩
  · intro m hne
    obtain ⟨bvh, h, -, -, -⟩ := buildBVH_spec m hne
    exact ⟨bvh, h⟩
  · intro cent fab nodes idx a ps hlook hvalid hcrash
    rcases splitNode_spec cent fab nodes idx a ps hlook hvalid with
      ⟨hsn, -⟩ | ⟨c, -, hsn, -, -, -, -, -⟩
    · rw [hcrash] at hsn
      exact SplitResult.noConfusion hsn
    · rw [hcrash] at hsn
      exact SplitResult.noConfusion hsn
  · intro cent fab rootAabb axis prims i
    constructor
    · exact combine_assert_holds cent fab rootAabb axis prims _
        (fun bk hbk => List.mem_of_mem_take hbk)
    · exact combine_assert_holds cent fab rootAabb axis prims _
        (fun bk hbk => List.mem_of_mem_drop hbk)

/-- Witness for **C5** on a concrete mesh. -/
theorem C5_no_panic_witness : ∃ bvh, buildBVH mesh1 = some bvh :=
  C5_no_panic.1 mesh1 (by decide)

/-- **C6.** In any built BVH, every node's box contains the per-face boxes of
all faces stored in any leaf of its subtree. -/
theorem C6_bounding_containment :
    ∀ (m : EditableMesh) (bvh : BoundingVolumeHierarchy),
      buildBVH m = some bvh →
      ∀ (i j : ℕ), Desc bvh.nodes i j →
        ∀ (a : Aabb3d) (ps : List ℕ),
          bvh.nodes[j]? = some (Node.leaf a ps) →
        ∀ (ni : Node), bvh.nodes[i]? = some ni →
        ∀ f ∈ ps, (faceAabb (m.faces.getD f [])).inside ni.aabb := by
  intro m bvh h i j hdesc a ps hj ni hi f hf
  have hne : m.faces ≠ [] := by
    intro hc
    unfold buildBVH at h
    rw [hc] at h
    exact Option.noConfusion h
  obtain ⟨bvh2, h2, -, -, hfin⟩ := buildBVH_spec m hne
  rw [h] at h2
  injection h2 with h2
  subst h2
  have hchain : ∀ (i j : ℕ), Desc bvh.nodes i j →
      ∀ (nj : Node), bvh.nodes[j]? = some nj →
      ∀ (ni : Node), bvh.nodes[i]? = some ni → nj.aabb.inside ni.aabb := by
    intro i j hd
    induction hd with
    | refl =>
      intro nj hnj ni hni
      rw [hnj] at hni
      injection hni with hni
      rw [hni]
      exact Aabb3d.inside_refl _
    | child j l r c2 a2 hd hlook hor ih =>
      intro nc hnc ni hni
      obtain ⟨⟨nl, hnl, hnlin⟩, ⟨nr, hnr, hnrin⟩⟩ := hfin.childOk j l r a2 hlook
      have hj2 : (Node.nonLeaf l r a2).aabb.inside ni.aabb := ih _ hlook _ hni
      rcases hor with rfl | rfl
      · rw [hnl] at hnc
        injection hnc with hnc
        rw [← hnc]
        exact Aabb3d.inside_trans hnlin hj2
      · rw [hnr] at hnc
        injection hnc with hnc
        rw [← hnc]
        exact Aabb3d.inside_trans hnrin hj2
  have hcont := hfin.leafCont j a ps hj f hf
  have hin := hchain i j hdesc _ hj ni hi
  exact Aabb3d.inside_trans hcont hin

set_option maxRecDepth 100000 in
unseal Rat.mul Rat.add Rat.sub Rat.inv in
/-- Witness for **C6** on a concrete mesh. -/
theorem C6_bounding_containment_witness :
    (faceAabb (mesh1.faces.getD 0 [])).inside
      (Node.leaf ⟨⟨0, 0, 0⟩, ⟨1, 1, 0⟩⟩ [0]).aabb :=
  C6_bounding_containment mesh1 bvh1 (by decide) 0 0 (Desc.refl 0)
    ⟨⟨0, 0, 0⟩, ⟨1, 1, 0⟩⟩ [0] (by decide)
    (Node.leaf ⟨⟨0, 0, 0⟩, ⟨1, 1, 0⟩⟩ [0]) (by decide) 0 (by decide)

/-- **C7.** The build is a pure function of the mesh (identical meshes give
identical trees), and SAH cost ties resolve to the first minimum in the
axis-then-boundary iteration order. -/
theorem C7_determinism :
    (∀ m1 m2 : EditableMesh, m1 = m2 → buildBVH m1 = buildBVH m2) ∧
    (∀ (l : List SplitCandidate) (c : SplitCandidate), pickBest l = some c →
      ∃ pre suf, l = pre ++ c :: suf ∧ (∀ d ∈ pre, c.cost < d.cost) ∧
        ∀ d ∈ suf, c.cost ≤ d.cost) :=
  ⟨fun m1 m2 h => by rw [h], pickBest_first_min⟩

/-- Witness for **C7** at concrete inputs. -/
theorem C7_determinism_witness :
    buildBVH mesh1 = buildBVH mesh1 ∧
    ∃ pre suf, [candX] = pre ++ candX :: suf ∧
      (∀ d ∈ pre, candX.cost < d.cost) ∧ ∀ d ∈ suf, candX.cost ≤ d.cost :=
  ⟨C7_determinism.1 mesh1 mesh1 rfl, C7_determinism.2 [candX] candX (by rfl)⟩

unseal Rat.mul Rat.add Rat.sub Rat.inv in
/-- Witness for **C3 (amended)** on a concrete query. -/
theorem C3_precise_acceptance_witness :
    intersectsRayAt bvh1 ray1 Transform.IDENTITY mesh1 = some (some (0, 1)) ∧
    ∃ hits, preciseLoop bvh1.nodes mesh1 (transformedRay ray1 Transform.IDENTITY)
        Transform.IDENTITY (3 ^ (bvh1.nodes.length + 1)) [0] none [] =
        some (some (0, 1), hits) ∧ (some (0, 1) : Option (ℕ × ℚ)) = selectClosest hits :=
  ⟨by decide, C3_precise_acceptance.2.2 bvh1 mesh1 ray1 Transform.IDENTITY
    (some (0, 1)) (by decide)⟩

set_option maxRecDepth 100000 in
unseal Rat.mul Rat.add Rat.sub Rat.inv in
/-- **C2 counterexample.** Under the negative-`z`-scale transform `tfNeg`,
the fast traversal on the BVH built from `mesh9` returns `None` although the
(rotated) ray does hit a leaf AABB: node 1 is a leaf with entry distance 1,
yet the query reports no hit, because the negative scale inverts the moved
box corners and the root slab test fails. So "returns `None` exactly when
the ray intersects no leaf AABB" is false as stated. -/
theorem C2_counterexample :
    (buildBVH mesh9).map (fun b => intersectsRayAtFast b rayX tfNeg) =
      some (some none) ∧
    (buildBVH mesh9).map (fun b => b.nodes.map
      (fun n => n.intersectsRay (transformedRay rayX tfNeg) tfNeg)) =
      some [none, some 1, none] ∧
    (buildBVH mesh9).map (fun b => b.nodes.map Node.isLeaf) =
      some [false, true, true] := by
  refine ⟨by decide, by decide, by decide⟩

/-- **C2 (amended).** For a BVH built from a mesh, a transform whose scale is
componentwise non-negative, and a ray with non-negative maximum, the fast
traversal terminates and returns the minimum entry distance over all leaf
AABBs the rotated ray enters (scale/translation-adjusted), and `None`
exactly when no leaf AABB is entered; the stack order and best-distance
pruning do not change this result. -/
theorem C2_fast_traversal_min_entry :
    ∀ (m : EditableMesh) (bvh : BoundingVolumeHierarchy) (ray : RayCast3d)
      (tf : Transform),
      buildBVH m = some bvh →
      Vec3.le Vec3.zero tf.scale → 0 ≤ ray.rmax →
      ∃ res, intersectsRayAtFast bvh ray tf = some res ∧
        ((res = none ∧ ∀ (j : ℕ) (t : ℚ),
          ¬ leafEntry bvh.nodes (transformedRay ray tf) tf j t) ∨
        (∃ t : ℚ, res = some t ∧
          (∃ j : ℕ, leafEntry bvh.nodes (transformedRay ray tf) tf j t) ∧
          ∀ (j : ℕ) (t2 : ℚ),
            leafEntry bvh.nodes (transformedRay ray tf) tf j t2 → t ≤ t2)) := by
  intro m bvh ray tf h hscale hr
  have hne : m.faces ≠ [] := by
    intro hc
    unfold buildBVH at h
    rw [hc] at h
    exact Option.noConfusion h
  obtain ⟨bvh2, h2, -, hpos, hfin⟩ := buildBVH_spec m hne
  rw [h] at h2
  injection h2 with h2
  subst h2
  have hr2 : 0 ≤ (transformedRay ray tf).rmax := hr
  have hm : stackMeasure bvh.nodes [0] < 3 ^ (bvh.nodes.length + 1) := by
    rw [stackMeasure_cons, stackMeasure_nil]
    have h1 : 3 ^ (bvh.nodes.length - 0) ≤ 3 ^ bvh.nodes.length :=
      Nat.pow_le_pow_right (by norm_num) (by omega)
    have h2 : (3 : ℕ) ^ (bvh.nodes.length + 1) = 3 ^ bvh.nodes.length * 3 :=
      pow_succ 3 _
    have h3 : 1 ≤ (3 : ℕ) ^ bvh.nodes.length := Nat.one_le_pow _ _ (by norm_num)
    omega
  obtain ⟨res, hrun, hP1, hP2, hP3⟩ := fastLoop_spec bvh.nodes
    (transformedRay ray tf) tf hscale hr2 hfin.childOk hfin.childIdx
    (3 ^ (bvh.nodes.length + 1)) [0] none
    (fun s hs => by
      have hs0 : s = 0 := by simpa using hs
      subst hs0
      exact ⟨_, List.getElem?_eq_getElem hpos⟩)
    hm
  refine ⟨res, hrun, ?_⟩
  rcases res with - | t
  · left
    refine ⟨rfl, ?_⟩
    intro j t hle
    have hjlt : j < bvh.nodes.length := by
      obtain ⟨a, ps, hj, -⟩ := hle
      exact lt_length_of_getElem?_some hj
    obtain ⟨tr, htr, -⟩ := hP2 0 (by simp) j t (hfin.reach j hjlt) hle
    exact Option.noConfusion htr
  · right
    refine ⟨t, rfl, ?_, ?_⟩
    · rcases hP3 t rfl with hb | ⟨s, hs, j, hd, hle⟩
      · exact Option.noConfusion hb
      · exact ⟨j, hle⟩
    · intro j t2 hle
      have hjlt : j < bvh.nodes.length := by
        obtain ⟨a, ps, hj, -⟩ := hle
        exact lt_length_of_getElem?_some hj
      obtain ⟨tr, htr, hrle⟩ := hP2 0 (by simp) j t2 (hfin.reach j hjlt) hle
      injection htr with htr
      rw [htr]
      exact hrle

unseal Rat.mul Rat.add Rat.sub Rat.inv in
/-- Witness for **C2 (amended)** on a concrete query. -/
theorem C2_fast_traversal_min_entry_witness :
    ∃ res, intersectsRayAtFast bvh1 ray1 Transform.IDENTITY = some res ∧
      ((res = none ∧ ∀ (j : ℕ) (t : ℚ),
        ¬ leafEntry bvh1.nodes (transformedRay ray1 Transform.IDENTITY)
          Transform.IDENTITY j t) ∨
      (∃ t : ℚ, res = some t ∧
        (∃ j : ℕ, leafEntry bvh1.nodes (transformedRay ray1 Transform.IDENTITY)
          Transform.IDENTITY j t) ∧
        ∀ (j : ℕ) (t2 : ℚ),
          leafEntry bvh1.nodes (transformedRay ray1 Transform.IDENTITY)
            Transform.IDENTITY j t2 → t ≤ t2)) :=
  C2_fast_traversal_min_entry mesh1 bvh1 ray1 Transform.IDENTITY (by decide)
    (by decide) (by decide)

end MeshupCore
